import Mathlib

/-!
# Verification of the Shor order-finding notebook (`shor_quantum_rings.ipynb`)

This file shallowly embeds the circuit-construction helpers and the classical
order-finding control loop of the notebook and proves/refutes the frozen
claims about it.

Modelling conventions:
* A qiskit `QuantumCircuit` is a fixed qubit count together with an ordered
  sequence of operations; `QuantumCircuit.append` validates that the operand
  list matches the gate's qubit count, holds no duplicates and stays in
  range, raising `CircuitError` otherwise.  Construction is therefore an
  `Except String Circuit` value.
* The library gate `CDKMRippleCarryAdder(n)` (default kind `"full"`) spans
  `2*n + 2` qubits: carry-in, the `a` register (`n` qubits), the `b`
  register (`n` qubits) and carry-out; on computational basis states it maps
  `|cin, a, b, cout⟩` to `|cin, a, (a+b+cin) mod 2^n, cout XOR carry⟩`.
  These two facts are taken from the qiskit documentation of the adder.
* Python's `random.randint` and the execution backends are external: the
  drivers take the drawn bases and the measured outcomes as streams
  (`ℕ → ℕ`) and raise `ValueError` exactly when `randint(2, N-1)` would
  (empty range, i.e. `N < 3`).
* Python integers are `ℕ`/`ℤ`; `pow(a, e, N)` is `a ^ e % N`;
  `math.gcd` on possibly negative arguments is `Int.gcd`.
* The measured phase `int(bits, 2) / 2**n_count` is a dyadic rational that
  the float represents exactly (the notebook uses `n_count ≤ 10`), so
  `Fraction(phase)` is modelled by the exact rational `mkRat v (2^n_count)`.
-/

/-! ## Bit-level helpers (Python `format(a, "0nb")` and `ceil(log2 N)`) -/

/-- Number of binary digits of `n` (0 for `n = 0`), computed with explicit
fuel so that it reduces definitionally.  `bitLen n = len(bin(n)) - 2` for
`n > 0` in Python terms. -/
def bitLenAux : ℕ → ℕ → ℕ
  | 0, _ => 0
  | fuel + 1, n => if n = 0 then 0 else bitLenAux fuel (n / 2) + 1

def bitLen (n : ℕ) : ℕ := bitLenAux n n



/-- `ceil(log2(N))` from the notebook (`from math import ceil, log2`): the
least `k` with `N ≤ 2^k`. -/
def ceilLog2 (N : ℕ) : ℕ := bitLen (N - 1)




/-- Length of the Python string `format(v, f"0{n}b")`: `max(n, len(bin(v)))`
(the binary form of `v` is never shorter than one digit). -/
def pyBinLen (v n : ℕ) : ℕ := max n (max 1 (bitLen v))


/-! ## Circuits and gates -/

mutual
/-- The gate language used by the notebook: single-qubit gates, the
multi-controlled X (`mcx`), the qiskit library gates (CDKM ripple-carry
adder and its inverse, the QFT), measurement of one qubit (classical bits
elided), a finished circuit converted to a gate (`.to_gate()`), and a
controlled gate (`.control(k)`).  Gate labels carry no semantics and are
elided. -/
inductive Gate where
  | x
  | h
  | mcx (controls : ℕ)
  | cdkmAdd (n : ℕ)
  | cdkmSub (n : ℕ)
  | qft (n : ℕ) (inverse : Bool)
  | measure
  | sub (nq : ℕ) (ops : OpSeq)
  | ctrl (k : ℕ) (g : Gate)

/-- An ordered sequence of gate applications, each with its operand qubits. -/
inductive OpSeq where
  | nil
  | cons (g : Gate) (qs : List ℕ) (rest : OpSeq)
end

/-- Append one application at the end of a sequence. -/
def OpSeq.snoc (s : OpSeq) (g : Gate) (qs : List ℕ) : OpSeq :=
  match s with
  | .nil => .cons g qs .nil
  | .cons g0 qs0 rest => .cons g0 qs0 (rest.snoc g qs)

/-- Number of qubits a gate spans (`Gate.num_qubits` in qiskit). -/
def Gate.arity : Gate → ℕ
  | .x => 1
  | .h => 1
  | .mcx k => k + 1
  | .cdkmAdd n => 2 * n + 2
  | .cdkmSub n => 2 * n + 2
  | .qft n _ => n
  | .measure => 1
  | .sub nq _ => nq
  | .ctrl k g => k + g.arity

/-- A circuit under construction: total qubit count and the operation list.
The classical registers of the notebook only receive final measurements and
are elided. -/
structure Circuit where
  numQubits : ℕ
  ops : OpSeq

/-- `QuantumCircuit.append(gate, qubits)`: qiskit raises `CircuitError`
when the operand count differs from the gate's qubit count, an operand is
repeated, or an operand is out of range. -/
def appendGate (qc : Circuit) (g : Gate) (qs : List ℕ) : Except String Circuit :=
  if qs.length = g.arity ∧ qs.Nodup ∧ ∀ q ∈ qs, q < qc.numQubits then
    .ok { qc with ops := qc.ops.snoc g qs }
  else
    .error "CircuitError"

/-- `circuit.to_gate()` (labels elided). -/
def toGate (qc : Circuit) : Gate := .sub qc.numQubits qc.ops



/-! ## Circuit builders from the notebook -/

/-- The loop `for i, bit in enumerate(reversed(format(v, f"0{n}b"))): if bit
== b: qc.x(offset + i)` where `b` is `'1'` (`whenSet = true`) or `'0'`
(`whenSet = false`); the index list is `List.range (pyBinLen v n)`. -/
def xOnBits (whenSet : Bool) (v offset : ℕ) : List ℕ → Circuit → Except String Circuit
  | [], qc => .ok qc
  | i :: rest, qc =>
    if v.testBit i = whenSet then do
      let qc ← appendGate qc .x [offset + i]
      xOnBits whenSet v offset rest qc
    else xOnBits whenSet v offset rest qc

/-- `quantum_modular_addition_clean(a, N, n_bits)`: loads the constant `a`
into the upper half of the register and appends the full CDKM adder over
all `adder.num_qubits` qubits.  (`N` only appears in the elided label.) -/
def quantum_modular_addition_clean (a N n_bits : ℕ) : Except String Circuit := do
  let _ := N
  let expected_qubits := (Gate.cdkmAdd n_bits).arity
  let qc : Circuit := ⟨expected_qubits, .nil⟩
  let qc ← xOnBits true a n_bits (List.range (pyBinLen a n_bits)) qc
  let qc ← appendGate qc (Gate.cdkmAdd n_bits) (List.range expected_qubits)
  return qc

/-- `modular_add_const_mod_N(a, N, n_bits)`: registers `x = 0..n_bits-1`,
`work = n_bits..2*n_bits-1`, `carry = 2*n_bits`, `flag = 2*n_bits+1`.
Loads `a` into `work`, appends the CDKM adder on `x ++ work ++ carry`
(`2*n_bits+1` operands), compares `x` with `N` via negation + `mcx` onto
`flag`, then applies the controlled inverse adder. -/
def modular_add_const_mod_N (a N n_bits : ℕ) : Except String Circuit := do
  let qc : Circuit := ⟨2 * n_bits + 2, .nil⟩
  let qc ← xOnBits true a n_bits (List.range (pyBinLen a n_bits)) qc
  let qc ← appendGate qc (Gate.cdkmAdd n_bits) (List.range (2 * n_bits + 1))
  let qc ← xOnBits false N 0 (List.range (pyBinLen N n_bits)) qc
  let qc ← appendGate qc (Gate.mcx n_bits) (List.range n_bits ++ [2 * n_bits + 1])
  let qc ← xOnBits false N 0 (List.range (pyBinLen N n_bits)) qc
  let qc ← xOnBits true N n_bits (List.range (pyBinLen N n_bits)) qc
  let qc ← appendGate qc (Gate.ctrl 1 (Gate.cdkmSub n_bits))
      ((2 * n_bits + 1) :: List.range (2 * n_bits + 1))
  return qc

/-- The loop body shared (verbatim in the source) by
`controlled_multiply_const_mod_N` and `multiply_const_mod_N`: for each input
bit `i`, if `(a * pow(2, i, N)) % N` is nonzero, append the controlled
modular-addition gate on `[x[i]] + res + work + [flag]`.  Registers:
`x = 0..n-1`, `res = n..2n-1`, `work = 2n..3n-1`, `flag = 3n`. -/
def cmulLoop (a N n_bits : ℕ) : List ℕ → Circuit → Except String Circuit
  | [], qc => .ok qc
  | i :: rest, qc =>
    let a_shift := a * (2 ^ i % N) % N
    if a_shift = 0 then cmulLoop a N n_bits rest qc
    else do
      let add_circuit ← modular_add_const_mod_N a_shift N n_bits
      let add_gate := Gate.ctrl 1 (toGate add_circuit)
      let qc ← appendGate qc add_gate
        (i :: ((List.range n_bits).map (· + n_bits) ++
               (List.range n_bits).map (· + 2 * n_bits) ++ [3 * n_bits]))
      cmulLoop a N n_bits rest qc

/-- `controlled_multiply_const_mod_N(a, N, n_bits)`: `3*n_bits + 1` qubits. -/
def controlled_multiply_const_mod_N (a N n_bits : ℕ) : Except String Circuit :=
  cmulLoop a N n_bits (List.range n_bits) ⟨3 * n_bits + 1, .nil⟩

/-- `multiply_const_mod_N(a, N, n_bits)`: the source body is identical to
`controlled_multiply_const_mod_N`. -/
def multiply_const_mod_N (a N n_bits : ℕ) : Except String Circuit :=
  cmulLoop a N n_bits (List.range n_bits) ⟨3 * n_bits + 1, .nil⟩

/-- The loop of `controlled_modular_exponentiation`: for counting qubit `i`,
build `quantum_modular_addition_clean(pow(a, 2**i, N), N, n_bits)`, turn it
into a singly-controlled gate and append it on
`[counting_qr[i]] + list(working_qr)`. -/
def modexpLoop (a N n_bits n_count work_qubits : ℕ) :
    List ℕ → Circuit → Except String Circuit
  | [], qc => .ok qc
  | i :: rest, qc => do
    let mult := a ^ 2 ^ i % N
    let mod_add ← quantum_modular_addition_clean mult N n_bits
    let mod_gate := Gate.ctrl 1 (toGate mod_add)
    let qc ← appendGate qc mod_gate (i :: (List.range work_qubits).map (· + n_count))
    modexpLoop a N n_bits n_count work_qubits rest qc

/-- `controlled_modular_exponentiation(a, N, n_count)`: counting register
`0..n_count-1`, working register `n_count..n_count+work_qubits-1` with
`work_qubits = adder.num_qubits`; sets `|1⟩` on `working_qr[0]`, runs the
ladder of controlled additions, and returns the whole circuit as a gate. -/
def controlled_modular_exponentiation (a N n_count : ℕ) : Except String Gate := do
  let n_bits := ceilLog2 N
  let work_qubits := (Gate.cdkmAdd n_bits).arity
  let qc : Circuit := ⟨n_count + work_qubits, .nil⟩
  let qc ← appendGate qc .x [n_count]
  let qc ← modexpLoop a N n_bits n_count work_qubits (List.range n_count) qc
  return toGate qc

/-- `qc.h(reg)` / per-qubit measurement: append a 1-qubit gate on each listed
qubit in order. -/
def appendEach (g : Gate) : List ℕ → Circuit → Except String Circuit
  | [], qc => .ok qc
  | q :: rest, qc => do
    let qc ← appendGate qc g [q]
    appendEach g rest qc

/-- `build_shors_qc(N, a, n_count)`: Hadamards on the counting register, the
`ModExp` gate, the inverse QFT on the counting register, and measurement of
the counting register. -/
def build_shors_qc (N a n_count : ℕ) : Except String Circuit := do
  let n_bits := ceilLog2 N
  let work_qubits := (Gate.cdkmAdd n_bits).arity
  let qc : Circuit := ⟨n_count + work_qubits, .nil⟩
  let qc ← appendEach .h (List.range n_count) qc
  let modexp_gate ← controlled_modular_exponentiation a N n_count
  let qc ← appendGate qc modexp_gate (List.range (n_count + work_qubits))
  let qc ← appendGate qc (Gate.qft n_count true) (List.range n_count)
  let qc ← appendEach .measure (List.range n_count) qc
  return qc

/-- `build_shors_qc_sampler_ready(N, a, n_count)`: like `build_shors_qc` but
without measurements, and with the source's `assert` that the `ModExp` gate
size matches the allocated register. -/
def build_shors_qc_sampler_ready (N a n_count : ℕ) : Except String Circuit := do
  let n_bits := ceilLog2 N
  let work_qubits := (Gate.cdkmAdd n_bits).arity
  let qc : Circuit := ⟨n_count + work_qubits, .nil⟩
  let qc ← appendEach .h (List.range n_count) qc
  let modexp_gate ← controlled_modular_exponentiation a N n_count
  if modexp_gate.arity ≠ n_count + work_qubits then
    Except.error "AssertionError"
  else do
    let qc ← appendGate qc modexp_gate (List.range (n_count + work_qubits))
    let qc ← appendGate qc (Gate.qft n_count true) (List.range n_count)
    return qc


/-! ## Classical basis-state semantics

The circuits relevant to the claims contain only classical (permutation)
gates: `X`, `mcx`, the CDKM adder/subtractor, controlled gates and
sub-circuits.  `applyGate`/`applyOps` evaluate such a circuit on a
computational basis state, given as the list of qubit values
(`state.get i` = qubit `i`, little-endian); they return `none` on the
non-classical gates (`H`, QFT) and on measurement. -/

/-- Little-endian integer value of the qubits at the listed positions. -/
def readBits (state : List Bool) : List ℕ → ℕ
  | [] => 0
  | q :: rest => (if state.getD q false then 1 else 0) + 2 * readBits state rest

/-- Write the little-endian binary form of `v` into the listed positions. -/
def writeBits (state : List Bool) : List ℕ → ℕ → List Bool
  | [], _ => state
  | q :: rest, v => writeBits (state.set q (v % 2 = 1)) rest (v / 2)

/-- Flip one qubit. -/
def flipBit (state : List Bool) (q : ℕ) : List Bool :=
  state.set q (!state.getD q false)

/-- Copy the local frame `inner` of a sub-circuit back into the outer state
at the operand positions `qs` (position `j` of the frame goes to qubit
`qs.get j`). -/
def writeBack (state : List Bool) (qs : List ℕ) (inner : List Bool) (j : ℕ) : List Bool :=
  match qs with
  | [] => state
  | q :: rest => writeBack (state.set q (inner.getD j false)) rest inner (j + 1)

mutual
def applyGate : Gate → List ℕ → List Bool → Option (List Bool)
  | .x, qs, state => some (flipBit state (qs.getD 0 0))
  | .h, _, _ => none
  | .mcx k, qs, state =>
    if (qs.take k).all (fun q => state.getD q false) then
      some (flipBit state (qs.getD k 0))
    else
      some state
  | .cdkmAdd n, qs, state =>
    let cin := if state.getD (qs.getD 0 0) false then 1 else 0
    let aPos := (qs.drop 1).take n
    let bPos := (qs.drop (n + 1)).take n
    let s := readBits state aPos + readBits state bPos + cin
    let state := writeBits state bPos (s % 2 ^ n)
    some (if 2 ^ n ≤ s then flipBit state (qs.getD (2 * n + 1) 0) else state)
  | .cdkmSub n, qs, state =>
    let cin := if state.getD (qs.getD 0 0) false then 1 else 0
    let aPos := (qs.drop 1).take n
    let bPos := (qs.drop (n + 1)).take n
    let b0 := (2 ^ n + readBits state bPos - (readBits state aPos + cin) % 2 ^ n) % 2 ^ n
    let borrow := 2 ^ n ≤ readBits state aPos + b0 + cin
    let state := writeBits state bPos b0
    some (if borrow then flipBit state (qs.getD (2 * n + 1) 0) else state)
  | .qft _ _, _, _ => none
  | .measure, _, _ => none
  | .sub _ ops, qs, state => do
    let inner ← applyOps ops (qs.map (fun q => state.getD q false))
    return writeBack state qs inner 0
  | .ctrl k g, qs, state =>
    if (qs.take k).all (fun q => state.getD q false) then
      applyGate g (qs.drop k) state
    else
      some state

def applyOps : OpSeq → List Bool → Option (List Bool)
  | .nil, state => some state
  | .cons g qs rest, state => do
    let state ← applyGate g qs state
    applyOps rest state
end

/-- Initial basis state for the `ModExp` gate: the counting register holds
the little-endian bits of `x`, all `work_qubits` working qubits are `|0⟩`. -/
def modexpInitState (n_count work_qubits x : ℕ) : List Bool :=
  writeBits (List.replicate (n_count + work_qubits) false) (List.range n_count) x

/-- Build the gate `controlled_modular_exponentiation a N n_count`, apply it
to the basis state with counting value `x` and zeroed work register, and
read back the little-endian value of the work register.  `none` if the
construction fails or a non-classical gate is hit. -/
def modexpEval (a N n_count x : ℕ) : Option ℕ :=
  let n_bits := ceilLog2 N
  let work_qubits := (Gate.cdkmAdd n_bits).arity
  match controlled_modular_exponentiation a N n_count with
  | .error _ => none
  | .ok g =>
    match applyGate g (List.range (n_count + work_qubits)) (modexpInitState n_count work_qubits x) with
    | none => none
    | some state => some (readBits state ((List.range work_qubits).map (· + n_count)))


/-! ## Continued-fraction period extraction

The notebook computes `Fraction(phase).limit_denominator(N)`.  The loop
below is CPython's `fractions.Fraction.limit_denominator`, modelled from the
stdlib source (it is library code the notebook calls): walk the continued
fraction of `num/den` while the convergent denominator stays within the
bound, then choose between the last convergent `p1/q1` and the best
semiconvergent `(p0+k*p1)/(q0+k*q1)`.  Python's `//` is `Int.fdiv`; the
first argument of the loop is the current remainder denominator `d`, which
strictly decreases. -/
def limitDenomLoop (den M : ℕ) (d : ℕ) (n p0 q0 p1 q1 : ℤ) : Except String ℚ :=
  if d = 0 then .error "ZeroDivisionError"
  else
    let a := Int.fdiv n (d : ℤ)
    let q2 := q0 + a * q1
    if (M : ℤ) < q2 then
      if q1 = 0 then .error "ZeroDivisionError"
      else
        let k := Int.fdiv ((M : ℤ) - q0) q1
        if 2 * (d : ℤ) * (q0 + k * q1) ≤ (den : ℤ) then .ok (mkRat p1 q1.toNat)
        else .ok (mkRat (p0 + k * p1) (q0 + k * q1).toNat)
    else
      limitDenomLoop den M (Int.fmod n (d : ℤ)).toNat (d : ℤ) p1 q1 (p0 + a * p1) q2
  termination_by d
  decreasing_by
    rename_i hd0 _hq2
    rw [Int.fmod_eq_emod _ (by omega : (0:ℤ) ≤ (d : ℤ))]
    have h1 : 0 ≤ n % (d : ℤ) := Int.emod_nonneg n (by simpa using hd0)
    have h2 : n % (d : ℤ) < (d : ℤ) := Int.emod_lt_of_pos n (by simpa [Nat.pos_iff_ne_zero] using hd0)
    omega

/-- `Fraction.limit_denominator(max_denominator)`: `ValueError` below 1,
identity when the denominator is already within the bound, otherwise the
continued-fraction walk. -/
def limitDenominator (x : ℚ) (maxDen : ℕ) : Except String ℚ :=
  if maxDen < 1 then .error "ValueError"
  else if x.den ≤ maxDen then .ok x
  else limitDenomLoop x.den maxDen x.den x.num 0 1 1 0

/-- `phase = int(measured, 2) / 2**n_count; frac =
Fraction(phase).limit_denominator(N); r = frac.denominator`. -/
def extractPeriod (measured n_count N : ℕ) : Except String ℕ := do
  let phase : ℚ := mkRat measured (2 ^ n_count)
  let frac ← limitDenominator phase N
  return frac.den

/-! ## Factor validation and the drivers -/

/-- The validation block shared verbatim by `shors_algorithm`,
`run_shors_single` and `run_shors_with_random_a_qrings`:
`if r % 2 == 0 and pow(a, r//2, N) not in [1, N-1]: x = pow(a, r//2, N);
factor1 = gcd(x-1, N); factor2 = gcd(x+1, N);
if factor1 not in [1, N] and factor2 not in [1, N]: return factor1,
factor2, a, r` — otherwise no factors. -/
def validateAndFactor (N a r : ℕ) : Option (ℕ × ℕ × ℕ × ℕ) :=
  if r % 2 = 0 ∧ a ^ (r / 2) % N ≠ 1 ∧ a ^ (r / 2) % N ≠ N - 1 then
    let x := a ^ (r / 2) % N
    let factor1 := Int.gcd ((x : ℤ) - 1) N
    let factor2 := Int.gcd ((x : ℤ) + 1) N
    if factor1 ≠ 1 ∧ factor1 ≠ N ∧ factor2 ≠ 1 ∧ factor2 ≠ N then
      some (factor1, factor2, a, r)
    else none
  else none

/-- A Python return value of the drivers: `None`, or a 4-tuple whose
components are integers or `None`. -/
inductive RetVal where
  | pynone
  | tuple4 (factor1 factor2 base period : Option ℕ)
deriving DecidableEq

/-- The unpacking `factor1, factor2, a_used, r_found = <driver result>`
performed by the notebook's driver cell: raises `TypeError` when the result
is `None`. -/
def unpack4 (v : RetVal) : Except String (Option ℕ × Option ℕ × Option ℕ × Option ℕ) :=
  match v with
  | .pynone => .error "TypeError"
  | .tuple4 f1 f2 a r => .ok (f1, f2, a, r)

/-- `run_shors_single(N, a, n_count, shots)`: builds the circuit, runs it on
the backend (external — the measured bitstring is the `measured` argument),
extracts the period and validates; returns the factor tuple or `None`. -/
def run_shors_single (N a n_count measured : ℕ) : Except String RetVal := do
  let _ ← build_shors_qc N a n_count
  let r ← extractPeriod measured n_count N
  match validateAndFactor N a r with
  | some (f1, f2, a2, r2) => return .tuple4 (some f1) (some f2) (some a2) (some r2)
  | none => return .pynone

/-- The trial loop of `shors_algorithm(N, n_count, max_trials)`.
`aStream trial` is the value drawn by `random.randint(2, N-1)` (which
raises `ValueError` when the range `[2, N-1]` is empty, i.e. `N < 3`);
`outcome trial` is the backend's measured counting-register value.  On
exhaustion it returns the 4-tuple `(None, None, None, None)`. -/
def shorsAlgorithmLoop (N n_count : ℕ) (aStream outcome : ℕ → ℕ) :
    ℕ → ℕ → Except String RetVal
  | 0, _ => .ok (.tuple4 none none none none)
  | fuel + 1, trial =>
    if N < 3 then .error "ValueError"
    else
      let a := aStream trial
      if Nat.gcd a N ≠ 1 then
        .ok (.tuple4 (some (Nat.gcd a N)) (some (N / Nat.gcd a N)) (some a) none)
      else do
        let _ ← build_shors_qc N a n_count
        let r ← extractPeriod (outcome trial) n_count N
        match validateAndFactor N a r with
        | some (f1, f2, a2, r2) => return .tuple4 (some f1) (some f2) (some a2) (some r2)
        | none => shorsAlgorithmLoop N n_count aStream outcome fuel (trial + 1)

def shors_algorithm (N n_count max_trials : ℕ) (aStream outcome : ℕ → ℕ) :
    Except String RetVal :=
  shorsAlgorithmLoop N n_count aStream outcome max_trials 0

/-- The trial loop of `run_shors_aer(N, n_count, max_trials, shots)`; on
exhaustion it returns `None`. -/
def runShorsAerLoop (N n_count : ℕ) (aStream outcome : ℕ → ℕ) :
    ℕ → ℕ → Except String RetVal
  | 0, _ => .ok .pynone
  | fuel + 1, trial =>
    if N < 3 then .error "ValueError"
    else
      let a := aStream trial
      if Nat.gcd a N ≠ 1 then
        .ok (.tuple4 (some (Nat.gcd a N)) (some (N / Nat.gcd a N)) (some a) none)
      else do
        let result ← run_shors_single N a n_count (outcome trial)
        if result ≠ .pynone then return result
        else runShorsAerLoop N n_count aStream outcome fuel (trial + 1)

def run_shors_aer (N n_count max_trials : ℕ) (aStream outcome : ℕ → ℕ) :
    Except String RetVal :=
  runShorsAerLoop N n_count aStream outcome max_trials 0

/-- The trial loop of `run_shors_with_random_a_qrings(N, n_count, n_bits,
max_trials)`: same classical logic, but the circuit built per trial is
`build_shors_qc_sampler_ready` (inside `run_shors_on_quantum_rings_qrings`,
whose job submission and count normalisation are external) and the measured
bitstring is the highest-probability outcome, given by `outcome trial`.
On exhaustion it returns `None`. -/
def runShorsQringsLoop (N n_count : ℕ) (aStream outcome : ℕ → ℕ) :
    ℕ → ℕ → Except String RetVal
  | 0, _ => .ok .pynone
  | fuel + 1, trial =>
    if N < 3 then .error "ValueError"
    else
      let a := aStream trial
      if Nat.gcd a N ≠ 1 then
        .ok (.tuple4 (some (Nat.gcd a N)) (some (N / Nat.gcd a N)) (some a) none)
      else do
        let _ ← build_shors_qc_sampler_ready N a n_count
        let r ← extractPeriod (outcome trial) n_count N
        match validateAndFactor N a r with
        | some (f1, f2, a2, r2) => return .tuple4 (some f1) (some f2) (some a2) (some r2)
        | none => runShorsQringsLoop N n_count aStream outcome fuel (trial + 1)

def run_shors_with_random_a_qrings (N n_count max_trials : ℕ)
    (aStream outcome : ℕ → ℕ) : Except String RetVal :=
  runShorsQringsLoop N n_count aStream outcome max_trials 0

/-- Instrumented `shorsAlgorithmLoop`: additionally returns how many trials
were started and how many quantum circuits were constructed. -/
def shorsTraceLoop (N n_count : ℕ) (aStream outcome : ℕ → ℕ) :
    ℕ → ℕ → Except String RetVal × ℕ × ℕ
  | 0, _ => (.ok (.tuple4 none none none none), 0, 0)
  | fuel + 1, trial =>
    if N < 3 then (.error "ValueError", 1, 0)
    else
      let a := aStream trial
      if Nat.gcd a N ≠ 1 then
        (.ok (.tuple4 (some (Nat.gcd a N)) (some (N / Nat.gcd a N)) (some a) none), 1, 0)
      else
        match build_shors_qc N a n_count with
        | .error e => (.error e, 1, 1)
        | .ok _ =>
          match extractPeriod (outcome trial) n_count N with
          | .error e => (.error e, 1, 1)
          | .ok r =>
            match validateAndFactor N a r with
            | some (f1, f2, a2, r2) =>
              (.ok (.tuple4 (some f1) (some f2) (some a2) (some r2)), 1, 1)
            | none =>
              let rest := shorsTraceLoop N n_count aStream outcome fuel (trial + 1)
              (rest.1, rest.2.1 + 1, rest.2.2 + 1)


/-! ## Lemmas about the bit-level helpers and `append` -/

theorem bitLenAux_le_iff : ∀ fuel n k, n ≤ fuel → (bitLenAux fuel n ≤ k ↔ n < 2 ^ k) := by
  intro fuel
  induction fuel with
  | zero =>
    intro n k hn
    have hz : n = 0 := by omega
    subst hz
    simp [bitLenAux]
  | succ f ih =>
    intro n k hn
    by_cases h0 : n = 0
    · subst h0
      simp [bitLenAux]
    · have hdiv : n / 2 < n := Nat.div_lt_self (Nat.pos_of_ne_zero h0) (by norm_num)
      have hn2 : n / 2 ≤ f := by omega
      cases k with
      | zero =>
        simp only [bitLenAux, h0, if_false, pow_zero]
        constructor <;> (intro hh; omega)
      | succ k =>
        have hih := ih (n / 2) k hn2
        simp only [bitLenAux, h0, if_false]
        rw [Nat.succ_le_succ_iff, hih, pow_succ]
        have h2 : 2 * (n / 2) + n % 2 = n := Nat.div_add_mod n 2
        have h3 : n % 2 < 2 := Nat.mod_lt _ (by norm_num)
        constructor <;> (intro hh; omega)

theorem bitLen_le_iff (n k : ℕ) : bitLen n ≤ k ↔ n < 2 ^ k :=
  bitLenAux_le_iff n n k (le_refl n)

theorem ceilLog2_le_iff (N k : ℕ) : ceilLog2 N ≤ k ↔ N ≤ 2 ^ k := by
  unfold ceilLog2
  rw [bitLen_le_iff]
  have : 0 < 2 ^ k := Nat.pos_pow_of_pos k (by norm_num)
  omega

theorem le_two_pow_ceilLog2 (N : ℕ) : N ≤ 2 ^ ceilLog2 N :=
  (ceilLog2_le_iff N (ceilLog2 N)).1 (le_refl _)

theorem ceilLog2_pos (N : ℕ) (hN : 2 ≤ N) : 1 ≤ ceilLog2 N := by
  by_contra h
  have : ceilLog2 N ≤ 0 := by omega
  have := (ceilLog2_le_iff N 0).1 this
  simp at this
  omega

theorem pyBinLen_eq (v n : ℕ) (hn : 1 ≤ n) (hv : v < 2 ^ n) : pyBinLen v n = n := by
  unfold pyBinLen
  have h1 : bitLen v ≤ n := (bitLen_le_iff v n).2 hv
  omega

theorem appendGate_ok (qc : Circuit) (g : Gate) (qs : List ℕ)
    (h1 : qs.length = g.arity) (h2 : qs.Nodup) (h3 : ∀ q ∈ qs, q < qc.numQubits) :
    appendGate qc g qs = .ok { qc with ops := qc.ops.snoc g qs } := by
  unfold appendGate
  rw [if_pos ⟨h1, h2, h3⟩]

theorem appendGate_numQubits (qc : Circuit) (g : Gate) (qs : List ℕ) (qc' : Circuit)
    (h : appendGate qc g qs = .ok qc') : qc'.numQubits = qc.numQubits := by
  unfold appendGate at h
  split at h
  · cases h; rfl
  · cases h

/-! ## Construction-success lemmas for the clean builders -/

theorem ok_then {α β : Type} (a : α) (f : α → Except String β) :
    (Except.ok a >>= f) = f a := rfl

theorem err_then {α β : Type} (e : String) (f : α → Except String β) :
    ((Except.error e : Except String α) >>= f) = .error e := rfl

theorem xOnBits_ok (w : Bool) (v offset : ℕ) :
    ∀ (l : List ℕ) (qc : Circuit), (∀ i ∈ l, offset + i < qc.numQubits) →
    ∃ qc', xOnBits w v offset l qc = .ok qc' ∧ qc'.numQubits = qc.numQubits := by
  intro l
  induction l with
  | nil => intro qc _; exact ⟨qc, rfl, rfl⟩
  | cons i rest ih =>
    intro qc hb
    by_cases ht : v.testBit i = w
    · have happ := appendGate_ok qc .x [offset + i] (by simp [Gate.arity]) (by simp)
        (by intro p hp; simp at hp; subst hp; exact hb i (by simp))
      obtain ⟨qc', h1, h2⟩ := ih { qc with ops := qc.ops.snoc .x [offset + i] }
        (by intro j hj; exact hb j (by simp [hj]))
      refine ⟨qc', ?_, h2⟩
      simp only [xOnBits, if_pos ht, happ, ok_then]
      exact h1
    · obtain ⟨qc', h1, h2⟩ := ih qc (fun j hj => hb j (by simp [hj]))
      refine ⟨qc', ?_, h2⟩
      simp only [xOnBits, if_neg ht]
      exact h1

theorem appendEach_ok (g : Gate) (hg : g.arity = 1) :
    ∀ (l : List ℕ) (qc : Circuit), (∀ q ∈ l, q < qc.numQubits) →
    ∃ qc', appendEach g l qc = .ok qc' ∧ qc'.numQubits = qc.numQubits := by
  intro l
  induction l with
  | nil => intro qc _; exact ⟨qc, rfl, rfl⟩
  | cons i rest ih =>
    intro qc hb
    have happ := appendGate_ok qc g [i] (by simp [hg]) (by simp)
      (by intro p hp; simp at hp; have := hb i (by simp); omega)
    obtain ⟨qc', h1, h2⟩ := ih { qc with ops := qc.ops.snoc g [i] }
      (by intro j hj; exact hb j (by simp [hj]))
    refine ⟨qc', ?_, h2⟩
    simp only [appendEach, happ, ok_then]
    exact h1

theorem quantum_modular_addition_clean_ok (a N n_bits : ℕ)
    (hn : 1 ≤ n_bits) (ha : a < 2 ^ n_bits) :
    ∃ c, quantum_modular_addition_clean a N n_bits = .ok c ∧
      c.numQubits = 2 * n_bits + 2 := by
  obtain ⟨c1, h1, hq1⟩ := xOnBits_ok true a n_bits (List.range (pyBinLen a n_bits))
    ⟨2 * n_bits + 2, .nil⟩ (by
      intro i hi
      rw [pyBinLen_eq a n_bits hn ha] at hi
      simp only [List.mem_range] at hi
      show n_bits + i < 2 * n_bits + 2
      omega)
  have hq1' : c1.numQubits = 2 * n_bits + 2 := hq1
  have h2 := appendGate_ok c1 (Gate.cdkmAdd n_bits) (List.range (2 * n_bits + 2))
    (by simp [Gate.arity]) (List.nodup_range _)
    (by intro p hp; rw [hq1']; simpa using hp)
  refine ⟨{ c1 with
      ops := c1.ops.snoc (Gate.cdkmAdd n_bits) (List.range (2 * n_bits + 2)) }, ?_, ?_⟩
  · simp only [quantum_modular_addition_clean, Gate.arity, h1, ok_then, h2]
    rfl
  · simpa using hq1'

theorem modexpLoop_ok (a N n_bits n_count : ℕ) (hn : 1 ≤ n_bits) (hN : 1 ≤ N)
    (hNb : N ≤ 2 ^ n_bits) :
    ∀ (l : List ℕ) (qc : Circuit), (∀ i ∈ l, i < n_count) →
    qc.numQubits = n_count + (2 * n_bits + 2) →
    ∃ qc', modexpLoop a N n_bits n_count (2 * n_bits + 2) l qc = .ok qc' ∧
      qc'.numQubits = qc.numQubits := by
  intro l
  induction l with
  | nil => intro qc _ _; exact ⟨qc, rfl, rfl⟩
  | cons i rest ih =>
    intro qc hl hq
    have hmult : a ^ 2 ^ i % N < 2 ^ n_bits :=
      lt_of_lt_of_le (Nat.mod_lt _ (by omega)) hNb
    obtain ⟨cadd, hc1, hc2⟩ :=
      quantum_modular_addition_clean_ok (a ^ 2 ^ i % N) N n_bits hn hmult
    have harity : (Gate.ctrl 1 (toGate cadd)).arity = 1 + (2 * n_bits + 2) := by
      simp [Gate.arity, toGate, hc2]
    have hi : i < n_count := hl i (by simp)
    have happ := appendGate_ok qc (Gate.ctrl 1 (toGate cadd))
      (i :: (List.range (2 * n_bits + 2)).map (· + n_count))
      (by simp [harity]; omega)
      (by
        rw [List.nodup_cons]
        constructor
        · simp only [List.mem_map, List.mem_range, not_exists]
          intro j
          omega
        · exact ((List.nodup_range _).map (fun x y hxy => by omega)))
      (by
        intro p hp
        rw [hq]
        simp only [List.mem_cons, List.mem_map, List.mem_range] at hp
        rcases hp with rfl | ⟨j, hj, rfl⟩
        · omega
        · omega)
    obtain ⟨qc', h1, h2⟩ := ih
      { qc with ops := (qc.ops.snoc (Gate.ctrl 1 (toGate cadd))
          (i :: (List.range (2 * n_bits + 2)).map (· + n_count))) }
      (fun j hj => hl j (by simp [hj])) (by simpa using hq)
    refine ⟨qc', ?_, by rw [h2]⟩
    simp only [modexpLoop, hc1, ok_then, happ]
    exact h1

theorem controlled_modular_exponentiation_ok (a N n_count : ℕ) (hN : 2 ≤ N) :
    ∃ g, controlled_modular_exponentiation a N n_count = .ok g ∧
      g.arity = n_count + (2 * ceilLog2 N + 2) := by
  have hn := ceilLog2_pos N hN
  have hNb := le_two_pow_ceilLog2 N
  have happ := appendGate_ok ⟨n_count + (2 * ceilLog2 N + 2), .nil⟩ .x [n_count]
    (by simp [Gate.arity]) (by simp)
    (by
      intro p hp
      simp at hp
      show p < n_count + (2 * ceilLog2 N + 2)
      omega)
  obtain ⟨qc', h1, h2⟩ := modexpLoop_ok a N (ceilLog2 N) n_count hn (by omega) hNb
    (List.range n_count)
    { numQubits := n_count + (2 * ceilLog2 N + 2),
      ops := OpSeq.nil.snoc .x [n_count] }
    (by intro j hj; simpa using hj) rfl
  refine ⟨toGate qc', ?_, ?_⟩
  · simp only [controlled_modular_exponentiation, Gate.arity, happ, ok_then, h1]
    rfl
  · simp only [toGate, Gate.arity]
    rw [h2]

theorem build_shors_qc_ok (N a n_count : ℕ) (hN : 2 ≤ N) :
    ∃ c, build_shors_qc N a n_count = .ok c := by
  obtain ⟨g, hg, hga⟩ := controlled_modular_exponentiation_ok a N n_count hN
  obtain ⟨c1, h1, hq1⟩ := appendEach_ok .h rfl (List.range n_count)
    ⟨n_count + (2 * ceilLog2 N + 2), .nil⟩
    (by
      intro q hq
      simp at hq
      show q < n_count + (2 * ceilLog2 N + 2)
      omega)
  have h2 := appendGate_ok c1 g (List.range (n_count + (2 * ceilLog2 N + 2)))
    (by simp [hga]) (List.nodup_range _)
    (by intro q hq; rw [hq1]; simpa using hq)
  set c2 : Circuit :=
    { c1 with ops := c1.ops.snoc g (List.range (n_count + (2 * ceilLog2 N + 2))) } with hc2
  have hq2 : c2.numQubits = n_count + (2 * ceilLog2 N + 2) := by
    rw [hc2]; simpa using hq1
  have h3 := appendGate_ok c2 (Gate.qft n_count true) (List.range n_count)
    (by simp [Gate.arity]) (List.nodup_range _)
    (by intro q hq; rw [hq2]; simp at hq; omega)
  set c3 : Circuit := { c2 with ops := c2.ops.snoc (Gate.qft n_count true) (List.range n_count) }
    with hc3
  have hq3 : c3.numQubits = n_count + (2 * ceilLog2 N + 2) := by
    rw [hc3]; simpa using hq2
  obtain ⟨c4, h4, hq4⟩ := appendEach_ok .measure rfl (List.range n_count) c3
    (by intro q hq; rw [hq3]; simp at hq; omega)
  refine ⟨c4, ?_⟩
  simp only [build_shors_qc, Gate.arity, h1, ok_then, hg, h2, h3, h4]
  rfl

theorem build_shors_qc_sampler_ready_ok (N a n_count : ℕ) (hN : 2 ≤ N) :
    ∃ c, build_shors_qc_sampler_ready N a n_count = .ok c := by
  obtain ⟨g, hg, hga⟩ := controlled_modular_exponentiation_ok a N n_count hN
  obtain ⟨c1, h1, hq1⟩ := appendEach_ok .h rfl (List.range n_count)
    ⟨n_count + (2 * ceilLog2 N + 2), .nil⟩
    (by
      intro q hq
      simp at hq
      show q < n_count + (2 * ceilLog2 N + 2)
      omega)
  have h2 := appendGate_ok c1 g (List.range (n_count + (2 * ceilLog2 N + 2)))
    (by simp [hga]) (List.nodup_range _)
    (by intro q hq; rw [hq1]; simpa using hq)
  set c2 : Circuit :=
    { c1 with ops := c1.ops.snoc g (List.range (n_count + (2 * ceilLog2 N + 2))) } with hc2
  have hq2 : c2.numQubits = n_count + (2 * ceilLog2 N + 2) := by
    rw [hc2]; simpa using hq1
  have h3 := appendGate_ok c2 (Gate.qft n_count true) (List.range n_count)
    (by simp [Gate.arity]) (List.nodup_range _)
    (by intro q hq; rw [hq2]; simp at hq; omega)
  refine ⟨{ c2 with ops := (c2.ops.snoc (Gate.qft n_count true) (List.range n_count)) }, ?_⟩
  simp only [build_shors_qc_sampler_ready, Gate.arity, h1, ok_then, hg]
  rw [if_neg (by simp [hga])]
  simp only [h2, ok_then, h3, ok_then]
  rfl

/-! ## Correctness of `limit_denominator`

The notebook takes the candidate period to be the denominator of
`Fraction(phase).limit_denominator(N)`.  We prove that the value the loop
returns is a closest fraction to the input among all fractions with
denominator at most the bound. -/

theorem int_gcd_step (n d : ℤ) : Int.gcd d (n % d) = Int.gcd n d := by
  have hsplit : d * (n / d) + n % d = n := Int.ediv_add_emod n d
  apply Nat.dvd_antisymm
  · apply Int.natCast_dvd_natCast.mp
    apply Int.dvd_gcd
    · calc (Int.gcd d (n % d) : ℤ) ∣ d * (n / d) + n % d :=
            dvd_add (Dvd.dvd.mul_right Int.gcd_dvd_left _) Int.gcd_dvd_right
        _ = n := hsplit
    · exact Int.gcd_dvd_left
  · apply Int.natCast_dvd_natCast.mp
    apply Int.dvd_gcd
    · exact Int.gcd_dvd_right
    · have hsub : (Int.gcd n d : ℤ) ∣ n - d * (n / d) :=
        dvd_sub Int.gcd_dvd_left (Dvd.dvd.mul_right Int.gcd_dvd_right _)
      calc (Int.gcd n d : ℤ) ∣ n - d * (n / d) := hsub
        _ = n % d := by omega

theorem mkRat_den_le (n : ℤ) (d : ℕ) (hd : 0 < d) : (mkRat n d).den ≤ d := by
  have h1 : ((mkRat n d).den : ℤ) ∣ (d : ℤ) := by
    rw [Rat.mkRat_eq_divInt]
    exact Rat.den_dvd n d
  exact Nat.le_of_dvd hd (by exact_mod_cast h1)

theorem dist_frac (x : ℚ) (b e : ℤ) (he : 0 < e) :
    x - (b : ℚ) / (e : ℚ) =
      ((x.num * e - b * (x.den : ℤ) : ℤ) : ℚ) / (((x.den : ℤ) * e : ℤ) : ℚ) := by
  have heq : (e:ℚ) ≠ 0 := by
    have hpos : (0:ℚ) < (e:ℚ) := by exact_mod_cast he
    exact ne_of_gt hpos
  have hdq : (x.den:ℚ) ≠ 0 := by
    have hpos : (0:ℚ) < (x.den:ℚ) := by exact_mod_cast x.den_pos
    exact ne_of_gt hpos
  conv_lhs => rw [← Rat.num_div_den x]
  push_cast
  field_simp
  ring

theorem frac_gap (a c b e : ℤ) (hc : 0 < c) (he : 0 < e)
    (hne : (a:ℚ)/(c:ℚ) ≠ (b:ℚ)/(e:ℚ)) :
    1/((c:ℚ)*(e:ℚ)) ≤ |(a:ℚ)/(c:ℚ) - (b:ℚ)/(e:ℚ)| := by
  have hcq : (0:ℚ) < (c:ℚ) := by exact_mod_cast hc
  have heq : (0:ℚ) < (e:ℚ) := by exact_mod_cast he
  have hz : a * e - c * b ≠ 0 := by
    intro h
    apply hne
    rw [div_eq_div_iff (ne_of_gt hcq) (ne_of_gt heq)]
    have hprod : a * e = b * c := by rw [mul_comm b c]; omega
    exact_mod_cast hprod
  have h1 : (1:ℚ) ≤ |((a * e - c * b : ℤ) : ℚ)| := by
    exact_mod_cast Int.one_le_abs hz
  push_cast at h1
  rw [div_sub_div _ _ (ne_of_gt hcq) (ne_of_gt heq), abs_div,
    abs_of_pos (by positivity : (0:ℚ) < (c:ℚ)*(e:ℚ))]
  gcongr

/-- Between two adjacent fractions (unimodular pair) that straddle `x`, no
third fraction with denominator within the bound can come closer to `x`
than the nearer of the two. -/
theorem best_pair_ordered (x t cL cR : ℚ) (QL QR q M : ℤ)
    (hQL : 0 < QL) (hQR : 0 < QR) (hq : 0 < q) (hqM : q ≤ M) (hM : (M:ℤ) < QL + QR)
    (hLx : cL < x) (hxR : x < cR)
    (hgap : cR - cL = 1 / ((QL:ℚ) * (QR:ℚ)))
    (hgL : t ≠ cL → 1 / ((QL:ℚ) * (q:ℚ)) ≤ |cL - t|)
    (hgR : t ≠ cR → 1 / ((QR:ℚ) * (q:ℚ)) ≤ |cR - t|) :
    min |x - cL| |x - cR| ≤ |x - t| := by
  have hQLq : (0:ℚ) < (QL:ℚ) := by exact_mod_cast hQL
  have hQRq : (0:ℚ) < (QR:ℚ) := by exact_mod_cast hQR
  have hqq : (0:ℚ) < (q:ℚ) := by exact_mod_cast hq
  rcases le_or_lt t cL with h1 | h1
  · have e1 : |x - cL| = x - cL := abs_of_pos (by linarith)
    have e2 : |x - t| = x - t := abs_of_pos (by linarith)
    calc min |x - cL| |x - cR| ≤ |x - cL| := min_le_left _ _
      _ ≤ |x - t| := by rw [e1, e2]; linarith
  rcases le_or_lt cR t with h2 | h2
  · have e1 : |x - cR| = -(x - cR) := abs_of_neg (by linarith)
    have e2 : |x - t| = -(x - t) := abs_of_neg (by linarith)
    calc min |x - cL| |x - cR| ≤ |x - cR| := min_le_right _ _
      _ ≤ |x - t| := by rw [e1, e2]; linarith
  · exfalso
    have htL : t ≠ cL := ne_of_gt h1
    have htR : t ≠ cR := ne_of_lt h2
    have gL := hgL htL
    have gR := hgR htR
    rw [abs_of_neg (by linarith : cL - t < 0)] at gL
    rw [abs_of_pos (by linarith : 0 < cR - t)] at gR
    -- 1/(QL*q) ≤ t - cL, 1/(QR*q) ≤ cR - t, (t-cL) + (cR-t) = 1/(QL*QR)
    have k1 : (1:ℚ) ≤ (t - cL) * ((QL:ℚ) * (q:ℚ)) := by
      rw [div_le_iff (by positivity)] at gL
      linarith
    have k2 : (1:ℚ) ≤ (cR - t) * ((QR:ℚ) * (q:ℚ)) := by
      rw [div_le_iff (by positivity)] at gR
      linarith
    have k3 : ((t - cL) + (cR - t)) * ((QL:ℚ) * (QR:ℚ)) = 1 := by
      have : (t - cL) + (cR - t) = cR - cL := by ring
      rw [this, hgap]
      field_simp
    have kq : (q:ℚ) < (QL:ℚ) + (QR:ℚ) := by
      have : (q:ℚ) ≤ (M:ℚ) := by exact_mod_cast hqM
      have hM2 : (M:ℚ) < (QL:ℚ) + (QR:ℚ) := by exact_mod_cast hM
      linarith
    -- q = q * ((t-cL)+(cR-t)) * QL*QR = (t-cL)*QL*q*QR + (cR-t)*QR*q*QL
    --   ≥ QR + QL > q
    have e1 : (1:ℚ) * (QR:ℚ) ≤ ((t - cL) * ((QL:ℚ) * (q:ℚ))) * (QR:ℚ) :=
      mul_le_mul_of_nonneg_right k1 (by positivity)
    have e2 : (1:ℚ) * (QL:ℚ) ≤ ((cR - t) * ((QR:ℚ) * (q:ℚ))) * (QL:ℚ) :=
      mul_le_mul_of_nonneg_right k2 (by positivity)
    have e3 : ((t - cL) * ((QL:ℚ) * (q:ℚ))) * (QR:ℚ) +
        ((cR - t) * ((QR:ℚ) * (q:ℚ))) * (QL:ℚ) =
        (q:ℚ) * (((t - cL) + (cR - t)) * ((QL:ℚ) * (QR:ℚ))) := by ring
    rw [k3, mul_one] at e3
    nlinarith [e1, e2, e3, kq]

theorem best_pair (x : ℚ) (M P1 Q1 Ps Qs p q : ℤ)
    (hQ1 : 0 < Q1) (hQs : 0 < Qs) (hq : 0 < q) (hqM : q ≤ M)
    (hM : M < Q1 + Qs)
    (hdet : P1 * Qs - Ps * Q1 = 1 ∨ P1 * Qs - Ps * Q1 = -1)
    (hstr : ((P1:ℚ)/(Q1:ℚ) - x) * ((Ps:ℚ)/(Qs:ℚ) - x) < 0) :
    min |x - (P1:ℚ)/(Q1:ℚ)| |x - (Ps:ℚ)/(Qs:ℚ)| ≤ |x - (p:ℚ)/(q:ℚ)| := by
  have hQ1q : (0:ℚ) < (Q1:ℚ) := by exact_mod_cast hQ1
  have hQsq : (0:ℚ) < (Qs:ℚ) := by exact_mod_cast hQs
  set c1 : ℚ := (P1:ℚ)/(Q1:ℚ) with hc1
  set cs : ℚ := (Ps:ℚ)/(Qs:ℚ) with hcs
  have habs : |c1 - cs| = 1/((Q1:ℚ)*(Qs:ℚ)) := by
    rw [hc1, hcs, div_sub_div _ _ (ne_of_gt hQ1q) (ne_of_gt hQsq), abs_div,
      abs_of_pos (by positivity : (0:ℚ) < (Q1:ℚ)*(Qs:ℚ))]
    have hnum : |(P1:ℚ) * (Qs:ℚ) - (Q1:ℚ) * (Ps:ℚ)| = 1 := by
      have hcast : ((P1 * Qs - Ps * Q1 : ℤ) : ℚ) = (P1:ℚ) * (Qs:ℚ) - (Q1:ℚ) * (Ps:ℚ) := by
        push_cast
        ring
      rw [← hcast]
      rcases hdet with h | h <;> rw [h] <;> norm_num
    rw [hnum]
  have hgapL : (p:ℚ)/(q:ℚ) ≠ c1 → 1 / ((Q1:ℚ) * (q:ℚ)) ≤ |c1 - (p:ℚ)/(q:ℚ)| := by
    intro hne
    exact frac_gap P1 Q1 p q hQ1 hq (fun hh => hne hh.symm)
  have hgapS : (p:ℚ)/(q:ℚ) ≠ cs → 1 / ((Qs:ℚ) * (q:ℚ)) ≤ |cs - (p:ℚ)/(q:ℚ)| := by
    intro hne
    exact frac_gap Ps Qs p q hQs hq (fun hh => hne hh.symm)
  rcases lt_trichotomy c1 cs with hlt | heq | hgt
  · -- c1 < cs, so c1 < x < cs
    rcases mul_neg_iff.mp hstr with ⟨ha, hb⟩ | ⟨ha, hb⟩
    · linarith
    · have hx1 : c1 < x := by linarith
      have hx2 : x < cs := by linarith
      have hgap : cs - c1 = 1/((Q1:ℚ)*(Qs:ℚ)) := by
        rw [← habs, abs_of_neg (by linarith : c1 - cs < 0)]
        ring
      have := best_pair_ordered x ((p:ℚ)/(q:ℚ)) c1 cs Q1 Qs q M hQ1 hQs hq hqM
        (by linarith) hx1 hx2 hgap hgapL hgapS
      exact this
  · exfalso
    rw [heq] at hstr
    nlinarith [sq_nonneg (cs - x)]
  · -- cs < c1, so cs < x < c1
    rcases mul_neg_iff.mp hstr with ⟨ha, hb⟩ | ⟨ha, hb⟩
    · have hx1 : cs < x := by linarith
      have hx2 : x < c1 := by linarith
      have hgap : c1 - cs = 1/((Qs:ℚ)*(Q1:ℚ)) := by
        rw [mul_comm ((Qs:ℚ)) ((Q1:ℚ)), ← habs, abs_of_pos (by linarith : 0 < c1 - cs)]
      have := best_pair_ordered x ((p:ℚ)/(q:ℚ)) cs c1 Qs Q1 q M hQs hQ1 hq hqM
        (by linarith) hx1 hx2 hgap hgapS hgapL
      rw [min_comm]
      exact this
    · linarith

set_option maxHeartbeats 1600000 in
/-- Analysis of the terminating branch of `limitDenomLoop`: with the loop
invariants in force, whichever of the two candidates the `2*d*(q0+k*q1)`
test picks is a closest fraction with denominator within the bound. -/
theorem limitDenomBreak (x : ℚ) (M : ℕ) (n : ℤ) (d : ℕ) (p0 q0 p1 q1 a k : ℤ)
    (ha : a = Int.fdiv n (d:ℤ))
    (hk : k = Int.fdiv ((M:ℤ) - q0) q1)
    (hd : 0 < d)
    (hnum : x.num = p1 * n + p0 * (d:ℤ))
    (hden : (x.den:ℤ) = q1 * n + q0 * (d:ℤ))
    (hdet : p1 * q0 - p0 * q1 = 1 ∨ p1 * q0 - p0 * q1 = -1)
    (hq1 : 0 < q1) (hq0 : 0 ≤ q0) (hq0M : q0 ≤ (M:ℤ)) (hq1M : q1 ≤ (M:ℤ))
    (hdn : (d:ℤ) < n)
    (hbreak : (M:ℤ) < q0 + a * q1) :
    ((2 * (d:ℤ) * (q0 + k * q1) ≤ (x.den:ℤ) →
      (mkRat p1 q1.toNat).den ≤ M ∧
      ∀ p q : ℤ, 0 < q → q ≤ (M:ℤ) →
        |x - mkRat p1 q1.toNat| ≤ |x - (p:ℚ)/(q:ℚ)|) ∧
    (¬ 2 * (d:ℤ) * (q0 + k * q1) ≤ (x.den:ℤ) →
      (mkRat (p0 + k * p1) (q0 + k * q1).toNat).den ≤ M ∧
      ∀ p q : ℤ, 0 < q → q ≤ (M:ℤ) →
        |x - mkRat (p0 + k * p1) (q0 + k * q1).toNat| ≤ |x - (p:ℚ)/(q:ℚ)|)) := by
  have hdz : (0:ℤ) < (d:ℤ) := by exact_mod_cast hd
  have hD : (0:ℤ) < (x.den:ℤ) := by exact_mod_cast x.den_pos
  -- division facts for a and k
  have hfa := Int.fdiv_add_fmod n (d:ℤ)
  have hfa0 : 0 ≤ Int.fmod n (d:ℤ) := Int.fmod_nonneg (by omega) (le_of_lt hdz)
  have hfa1 : Int.fmod n (d:ℤ) < (d:ℤ) := Int.fmod_lt_of_pos n hdz
  have hna : 0 ≤ n - a * (d:ℤ) ∧ n - a * (d:ℤ) < (d:ℤ) := by
    rw [ha]
    constructor <;> (rw [mul_comm]; omega)
  have hfk := Int.fdiv_add_fmod ((M:ℤ) - q0) q1
  have hfk0 : 0 ≤ Int.fmod ((M:ℤ) - q0) q1 := Int.fmod_nonneg (by omega) (le_of_lt hq1)
  have hfk1 : Int.fmod ((M:ℤ) - q0) q1 < q1 := Int.fmod_lt_of_pos _ hq1
  have hks : q1 * k ≤ (M:ℤ) - q0 ∧ (M:ℤ) - q0 < q1 * (k + 1) := by
    rw [hk]
    constructor
    · nlinarith [hfk, hfk0]
    · nlinarith [hfk, hfk1]
  have hqsM : q0 + k * q1 ≤ (M:ℤ) := by nlinarith [hks.1]
  have hsum : (M:ℤ) < (q0 + k * q1) + q1 := by nlinarith [hks.2]
  have hk0 : 0 ≤ k := by
    by_contra hcon
    push_neg at hcon
    have h1 : q1 * (k + 1) ≤ 0 := by nlinarith
    have h2 := hks.2
    omega
  have hka : k < a := by
    by_contra hcon
    push_neg at hcon
    have hmul : a * q1 ≤ k * q1 := mul_le_mul_of_nonneg_right hcon (le_of_lt hq1)
    omega
  have hqs : 0 < q0 + k * q1 := by
    rcases lt_or_le 0 q0 with h | h
    · nlinarith
    · have hq0z : q0 = 0 := by omega
      have hk1 : 1 ≤ k := by
        by_contra hcon
        push_neg at hcon
        have : k = 0 := by omega
        rw [this, hq0z] at hsum
        simp at hsum
        omega
      nlinarith
  have hR : 0 < n - k * (d:ℤ) := by
    have h1 : k * (d:ℤ) ≤ (a - 1) * (d:ℤ) := by nlinarith
    have h2 : n - a * (d:ℤ) ≥ 0 := hna.1
    nlinarith
  -- abbreviations
  set qs : ℤ := q0 + k * q1 with hqsdef
  set ps : ℤ := p0 + k * p1 with hpsdef
  set R : ℤ := n - k * (d:ℤ) with hRdef
  set ε : ℤ := p1 * q0 - p0 * q1 with hedef
  -- numerator identities
  have hA : x.num * q1 - p1 * (x.den:ℤ) = -(ε * (d:ℤ)) := by
    rw [hnum, hden, hedef]
    ring
  have hB : x.num * qs - ps * (x.den:ℤ) = ε * R := by
    rw [hnum, hden, hqsdef, hpsdef, hRdef, hedef]
    ring
  have hdet2 : p1 * qs - ps * q1 = ε := by
    rw [hqsdef, hpsdef, hedef]
    ring
  -- distances
  have hdist1 : x - (p1:ℚ)/(q1:ℚ) =
      ((-(ε * (d:ℤ)) : ℤ):ℚ) / ((((x.den:ℤ) * q1) : ℤ):ℚ) := by
    rw [dist_frac x p1 q1 hq1, hA]
  have hdists : x - (ps:ℚ)/(qs:ℚ) =
      ((ε * R : ℤ):ℚ) / ((((x.den:ℤ) * qs) : ℤ):ℚ) := by
    rw [dist_frac x ps qs hqs, hB]
  have hDq1 : (0:ℚ) < ((((x.den:ℤ) * q1) : ℤ):ℚ) := by
    have hzz : (0:ℤ) < (x.den:ℤ) * q1 := by positivity
    exact_mod_cast hzz
  have hDqs : (0:ℚ) < ((((x.den:ℤ) * qs) : ℤ):ℚ) := by
    have hzz : (0:ℤ) < (x.den:ℤ) * qs := by positivity
    exact_mod_cast hzz
  have heps : ε = 1 ∨ ε = -1 := hdet
  have habs1 : |x - (p1:ℚ)/(q1:ℚ)| = (((d:ℤ)):ℚ) / ((((x.den:ℤ) * q1) : ℤ):ℚ) := by
    rw [hdist1, abs_div, abs_of_pos hDq1]
    congr 1
    have hzz : |(-(ε * (d:ℤ)) : ℤ)| = (d:ℤ) := by
      rcases heps with h | h <;> rw [h] <;> simp
    exact_mod_cast congrArg (fun z : ℤ => ((z:ℚ))) hzz
  have habss : |x - (ps:ℚ)/(qs:ℚ)| = ((R:ℤ):ℚ) / ((((x.den:ℤ) * qs) : ℤ):ℚ) := by
    rw [hdists, abs_div, abs_of_pos hDqs]
    congr 1
    have hzz : |(ε * R : ℤ)| = R := by
      rcases heps with h | h <;> rw [h] <;> simp [abs_of_pos hR, abs_of_nonneg (le_of_lt hR)]
    exact_mod_cast congrArg (fun z : ℤ => ((z:ℚ))) hzz
  -- the two candidates straddle x strictly
  have hstr : ((p1:ℚ)/(q1:ℚ) - x) * ((ps:ℚ)/(qs:ℚ) - x) < 0 := by
    have e1 : (p1:ℚ)/(q1:ℚ) - x = ((ε * (d:ℤ) : ℤ):ℚ) / ((((x.den:ℤ) * q1) : ℤ):ℚ) := by
      have h2 : (p1:ℚ)/(q1:ℚ) - x = -(x - (p1:ℚ)/(q1:ℚ)) := by ring
      rw [h2, hdist1]
      push_cast
      ring
    have e2 : (ps:ℚ)/(qs:ℚ) - x = ((-(ε * R) : ℤ):ℚ) / ((((x.den:ℤ) * qs) : ℤ):ℚ) := by
      have h2 : (ps:ℚ)/(qs:ℚ) - x = -(x - (ps:ℚ)/(qs:ℚ)) := by ring
      rw [h2, hdists]
      push_cast
      ring
    rw [e1, e2]
    rw [div_mul_div_comm]
    apply div_neg_of_neg_of_pos
    · have hnum2 : (ε * (d:ℤ)) * (-(ε * R)) = -((ε * ε) * ((d:ℤ) * R)) := by ring
      have hee : ε * ε = 1 := by rcases heps with h | h <;> rw [h] <;> norm_num
      have hcast : ((ε * (d:ℤ) : ℤ):ℚ) * ((-(ε * R) : ℤ):ℚ) = ((-((d:ℤ) * R) : ℤ):ℚ) := by
        have hzz : (ε * (d:ℤ)) * (-(ε * R)) = -((d:ℤ) * R) := by
          rw [hnum2, hee]
          ring
        exact_mod_cast congrArg (fun z : ℤ => ((z:ℚ))) hzz
      rw [hcast]
      have hpos : (0:ℤ) < (d:ℤ) * R := by positivity
      have hneg : (-((d:ℤ) * R) : ℤ) < 0 := by omega
      exact_mod_cast hneg
    · positivity
  -- min of the two distances bounds every bounded-denominator fraction
  have hbp : ∀ p q : ℤ, 0 < q → q ≤ (M:ℤ) →
      min |x - (p1:ℚ)/(q1:ℚ)| |x - (ps:ℚ)/(qs:ℚ)| ≤ |x - (p:ℚ)/(q:ℚ)| := by
    intro p q hq hqM
    exact best_pair x (M:ℤ) p1 q1 ps qs p q hq1 hqs hq hqM
      (by omega) (by rw [hdet2]; exact heps) hstr
  -- the branch test compares exactly the two distances
  have hcondiff : (2 * (d:ℤ) * qs ≤ (x.den:ℤ)) ↔
      |x - (p1:ℚ)/(q1:ℚ)| ≤ |x - (ps:ℚ)/(qs:ℚ)| := by
    rw [habs1, habss]
    rw [div_le_div_iff hDq1 hDqs]
    constructor
    · intro h
      have hz : (d:ℤ) * ((x.den:ℤ) * qs) ≤ R * ((x.den:ℤ) * q1) := by
        rw [hden, hqsdef, hRdef] at *
        nlinarith [h]
      exact_mod_cast hz
    · intro h
      have hz2 : (d:ℤ) * ((x.den:ℤ) * qs) ≤ R * ((x.den:ℤ) * q1) := by exact_mod_cast h
      rw [hden, hqsdef, hRdef] at *
      nlinarith [hz2]
  -- value and denominator of the two mkRat candidates
  have hval1 : (mkRat p1 q1.toNat : ℚ) = (p1:ℚ)/(q1:ℚ) := by
    rw [Rat.mkRat_eq_div]
    congr 1
    exact_mod_cast Int.toNat_of_nonneg (le_of_lt hq1)
  have hvals : (mkRat ps qs.toNat : ℚ) = (ps:ℚ)/(qs:ℚ) := by
    rw [Rat.mkRat_eq_div]
    congr 1
    exact_mod_cast Int.toNat_of_nonneg (le_of_lt hqs)
  have hden1 : (mkRat p1 q1.toNat).den ≤ M := by
    have h1 := mkRat_den_le p1 q1.toNat (by omega)
    omega
  have hdens : (mkRat ps qs.toNat).den ≤ M := by
    have h1 := mkRat_den_le ps qs.toNat (by omega)
    omega
  constructor
  · intro hcond
    refine ⟨hden1, ?_⟩
    intro p q hq hqM
    rw [hval1]
    have hmin : min |x - (p1:ℚ)/(q1:ℚ)| |x - (ps:ℚ)/(qs:ℚ)| = |x - (p1:ℚ)/(q1:ℚ)| :=
      min_eq_left (hcondiff.1 hcond)
    rw [← hmin]
    exact hbp p q hq hqM
  · intro hcond
    refine ⟨hdens, ?_⟩
    intro p q hq hqM
    rw [hvals]
    have hle : |x - (ps:ℚ)/(qs:ℚ)| ≤ |x - (p1:ℚ)/(q1:ℚ)| := by
      have hnotle := (not_iff_not.mpr hcondiff).mp hcond
      push_neg at hnotle
      exact le_of_lt hnotle
    have hmin : min |x - (p1:ℚ)/(q1:ℚ)| |x - (ps:ℚ)/(qs:ℚ)| = |x - (ps:ℚ)/(qs:ℚ)| :=
      min_eq_right hle
    rw [← hmin]
    exact hbp p q hq hqM

set_option maxHeartbeats 1600000 in
/-- The continued-fraction walk, run from any state satisfying its
invariants, terminates without error and returns a closest fraction with
denominator within the bound. -/
theorem limitDenomLoop_best (M : ℕ) (_hM : 1 ≤ M) (x : ℚ) (hxden : M < x.den) :
    ∀ d : ℕ, ∀ n p0 q0 p1 q1 : ℤ,
    0 < d →
    x.num = p1 * n + p0 * (d:ℤ) →
    (x.den:ℤ) = q1 * n + q0 * (d:ℤ) →
    (p1 * q0 - p0 * q1 = 1 ∨ p1 * q0 - p0 * q1 = -1) →
    0 < q1 → 0 ≤ q0 → q0 ≤ (M:ℤ) → q1 ≤ (M:ℤ) →
    (d:ℤ) < n →
    Int.gcd n (d:ℤ) = 1 →
    ∃ y : ℚ, limitDenomLoop x.den M d n p0 q0 p1 q1 = .ok y ∧ y.den ≤ M ∧
      ∀ p q : ℤ, 0 < q → q ≤ (M:ℤ) → |x - y| ≤ |x - (p:ℚ)/(q:ℚ)| := by
  intro d
  induction d using Nat.strong_induction_on with
  | _ d ih =>
    intro n p0 q0 p1 q1 hd hnum hden hdet hq1 hq0 hq0M hq1M hdn hgcd
    have hdz : (0:ℤ) < (d:ℤ) := by exact_mod_cast hd
    have hfa := Int.fdiv_add_fmod n (d:ℤ)
    have hfmod_emod : Int.fmod n (d:ℤ) = n % (d:ℤ) := Int.fmod_eq_emod _ (by omega)
    have hfa0 : 0 ≤ Int.fmod n (d:ℤ) := by
      rw [hfmod_emod]
      exact Int.emod_nonneg n (by omega)
    have hfa1 : Int.fmod n (d:ℤ) < (d:ℤ) := by
      rw [hfmod_emod]
      exact Int.emod_lt_of_pos n hdz
    have ha_pos : 1 ≤ Int.fdiv n (d:ℤ) := by
      by_contra hcon
      push_neg at hcon
      have h1 : Int.fdiv n (d:ℤ) ≤ 0 := by omega
      have h2 : (d:ℤ) * Int.fdiv n (d:ℤ) ≤ 0 := by
        rcases le_or_lt (Int.fdiv n (d:ℤ)) 0 with hle | hlt
        · exact mul_nonpos_of_nonneg_of_nonpos (le_of_lt hdz) hle
        · omega
      omega
    rw [limitDenomLoop]
    rw [if_neg (by omega : ¬ d = 0)]
    by_cases hbr : (M:ℤ) < q0 + Int.fdiv n (d:ℤ) * q1
    · -- terminating branch
      simp only [hbr, if_true, if_neg (by omega : ¬ q1 = 0)]
      have hbrk := limitDenomBreak x M n d p0 q0 p1 q1
        (Int.fdiv n (d:ℤ)) (Int.fdiv ((M:ℤ) - q0) q1) rfl rfl hd hnum hden hdet
        hq1 hq0 hq0M hq1M hdn hbr
      by_cases hsel : 2 * (d:ℤ) * (q0 + Int.fdiv ((M:ℤ) - q0) q1 * q1) ≤ (x.den:ℤ)
      · obtain ⟨h1, h2⟩ := hbrk.1 hsel
        exact ⟨mkRat p1 q1.toNat, by rw [if_pos hsel], h1, h2⟩
      · obtain ⟨h1, h2⟩ := hbrk.2 hsel
        exact ⟨mkRat (p0 + Int.fdiv ((M:ℤ) - q0) q1 * p1)
          (q0 + Int.fdiv ((M:ℤ) - q0) q1 * q1).toNat, by rw [if_neg hsel], h1, h2⟩
    · -- continue the walk
      simp only [hbr, if_false]
      set a : ℤ := Int.fdiv n (d:ℤ) with hadef
      set d2 : ℕ := (Int.fmod n (d:ℤ)).toNat with hd2def
      have hd2cast : (d2:ℤ) = n % (d:ℤ) := by
        rw [hd2def, hfmod_emod]
        exact Int.toNat_of_nonneg (by rw [← hfmod_emod]; exact hfa0)
      have hd2lt : d2 < d := by
        have := hfa1
        rw [hfmod_emod] at this
        omega
      have hd2pos : 0 < d2 := by
        rcases Nat.eq_zero_or_pos d2 with hz | hp
        · exfalso
          have hmod0 : n % (d:ℤ) = 0 := by
            have : (d2:ℤ) = 0 := by exact_mod_cast hz
            omega
          have hdvd : (d:ℤ) ∣ n := Int.dvd_of_emod_eq_zero hmod0
          have hdd : (d:ℤ) ∣ ((Int.gcd n (d:ℤ) : ℕ):ℤ) := Int.dvd_gcd hdvd dvd_rfl
          rw [hgcd] at hdd
          have hd1 : (d:ℤ) ≤ 1 := Int.le_of_dvd one_pos hdd
          have hd1' : (d:ℤ) = 1 := by omega
          -- with d = 1 the convergent denominator equals x.den > M: contradiction
          have ha_n : a = n := by rw [hadef, hd1', Int.fdiv_one]
          rw [hd1'] at hden
          have hdencomm : q1 * n = n * q1 := mul_comm _ _
          have hxdz : (M:ℤ) < (x.den:ℤ) := by exact_mod_cast hxden
          push_neg at hbr
          rw [ha_n] at hbr
          omega
        · exact hp
      have hnum' : x.num = (p0 + a * p1) * (d:ℤ) + p1 * (d2:ℤ) := by
        rw [hd2cast, hnum]
        have : n % (d:ℤ) = n - (d:ℤ) * a := by omega
        rw [this]
        ring
      have hden' : (x.den:ℤ) = (q0 + a * q1) * (d:ℤ) + q1 * (d2:ℤ) := by
        rw [hd2cast, hden]
        have : n % (d:ℤ) = n - (d:ℤ) * a := by omega
        rw [this]
        ring
      have hdet' : (p0 + a * p1) * q1 - p1 * (q0 + a * q1) = 1 ∨
          (p0 + a * p1) * q1 - p1 * (q0 + a * q1) = -1 := by
        rcases hdet with h | h
        · right
          linear_combination (-1 : ℤ) * h
        · left
          linear_combination (-1 : ℤ) * h
      have hq2pos : 0 < q0 + a * q1 := by
        have hmul : q1 ≤ a * q1 := le_mul_of_one_le_left (le_of_lt hq1) ha_pos
        omega
      have hq2M : q0 + a * q1 ≤ (M:ℤ) := by omega
      have hdn' : (d2:ℤ) < (d:ℤ) := by exact_mod_cast hd2lt
      have hgcd' : Int.gcd (d:ℤ) (d2:ℤ) = 1 := by
        rw [hd2cast, int_gcd_step n (d:ℤ)]
        exact hgcd
      obtain ⟨y, hy, hyden, hybest⟩ := ih d2 hd2lt (d:ℤ) p1 q1 (p0 + a * p1)
        (q0 + a * q1) hd2pos
        hnum' hden' hdet'
        hq2pos (le_of_lt hq1) hq1M hq2M hdn' hgcd'
      exact ⟨y, hy, hyden, hybest⟩

/-- `Fraction.limit_denominator` never raises for a bound of at least 1 and
returns a closest fraction with denominator at most the bound. -/
theorem limitDenominator_best (x : ℚ) (M : ℕ) (hM : 1 ≤ M) :
    ∃ y : ℚ, limitDenominator x M = .ok y ∧ y.den ≤ M ∧
      ∀ p q : ℤ, 0 < q → q ≤ (M:ℤ) → |x - y| ≤ |x - (p:ℚ)/(q:ℚ)| := by
  unfold limitDenominator
  rw [if_neg (by omega : ¬ M < 1)]
  by_cases hd : x.den ≤ M
  · refine ⟨x, by rw [if_pos hd], hd, ?_⟩
    intro p q hq hqM
    simp [abs_nonneg]
  · rw [if_neg hd]
    push_neg at hd
    have hdz : (0:ℤ) < (x.den:ℤ) := by exact_mod_cast x.den_pos
    rw [limitDenomLoop]
    rw [if_neg (by have := x.den_pos; omega : ¬ x.den = 0)]
    simp only [mul_zero, add_zero, mul_one, zero_add]
    rw [if_neg (by omega : ¬ (M:ℤ) < 1)]
    set a : ℤ := Int.fdiv x.num (x.den:ℤ) with hadef
    set d2 : ℕ := (Int.fmod x.num (x.den:ℤ)).toNat with hd2def
    have hfa := Int.fdiv_add_fmod x.num (x.den:ℤ)
    rw [← hadef] at hfa
    have hfmod_emod : Int.fmod x.num (x.den:ℤ) = x.num % (x.den:ℤ) :=
      Int.fmod_eq_emod _ (by omega)
    have hfa0 : 0 ≤ Int.fmod x.num (x.den:ℤ) := by
      rw [hfmod_emod]
      exact Int.emod_nonneg _ (by omega)
    have hfa1 : Int.fmod x.num (x.den:ℤ) < (x.den:ℤ) := by
      rw [hfmod_emod]
      exact Int.emod_lt_of_pos _ hdz
    have hd2cast : (d2:ℤ) = x.num % (x.den:ℤ) := by
      rw [hd2def, hfmod_emod]
      exact Int.toNat_of_nonneg (by rw [← hfmod_emod]; exact hfa0)
    have hgcd0 : Int.gcd x.num (x.den:ℤ) = 1 := by
      have hred := x.reduced
      simpa [Int.gcd] using hred
    have hd2pos : 0 < d2 := by
      rcases Nat.eq_zero_or_pos d2 with hz | hp
    -- a zero remainder would force den = 1 ≤ M, contradicting M < den
      · exfalso
        have hmod0 : x.num % (x.den:ℤ) = 0 := by
          have hzz : (d2:ℤ) = 0 := by exact_mod_cast hz
          omega
        have hdvd : (x.den:ℤ) ∣ x.num := Int.dvd_of_emod_eq_zero hmod0
        have hdd : (x.den:ℤ) ∣ ((Int.gcd x.num (x.den:ℤ) : ℕ):ℤ) :=
          Int.dvd_gcd hdvd dvd_rfl
        rw [hgcd0] at hdd
        have hone : (x.den:ℤ) ≤ 1 := Int.le_of_dvd one_pos hdd
        omega
      · exact hp
    have hgcd' : Int.gcd (x.den:ℤ) (d2:ℤ) = 1 := by
      rw [hd2cast, int_gcd_step x.num (x.den:ℤ)]
      exact hgcd0
    obtain ⟨y, hy, hyden, hybest⟩ := limitDenomLoop_best M hM x hd d2
      (x.den:ℤ) 1 0 a 1 hd2pos
      (by rw [hd2cast, mul_comm a ((x.den:ℤ))]; omega)
      (by ring)
      (by right; ring)
      one_pos (le_refl 0) (by omega) (by omega)
      (by omega)
      hgcd'
    exact ⟨y, hy, hyden, hybest⟩

/-- Period extraction never raises for `N ≥ 1` and its result is the
denominator of a closest fraction to the measured phase with denominator
at most `N`. -/
theorem extractPeriod_best (measured n_count N : ℕ) (hN : 1 ≤ N) :
    ∃ y : ℚ, limitDenominator (mkRat measured (2 ^ n_count)) N = .ok y ∧
      extractPeriod measured n_count N = .ok y.den ∧ y.den ≤ N ∧
      ∀ p q : ℤ, 0 < q → q ≤ (N:ℤ) →
        |mkRat measured (2 ^ n_count) - y| ≤
          |mkRat measured (2 ^ n_count) - (p:ℚ)/(q:ℚ)| := by
  obtain ⟨y, hy, hyden, hybest⟩ := limitDenominator_best (mkRat measured (2 ^ n_count)) N hN
  refine ⟨y, hy, ?_, hyden, hybest⟩
  simp only [extractPeriod, hy, ok_then]
  rfl

theorem extractPeriod_isOk (measured n_count N : ℕ) (hN : 1 ≤ N) :
    ∃ r, extractPeriod measured n_count N = .ok r := by
  obtain ⟨y, _, h2, _, _⟩ := extractPeriod_best measured n_count N hN
  exact ⟨y.den, h2⟩

/-! ## Driver-level lemmas -/

theorem run_shors_single_none (N a n_count measured r : ℕ) (hN : 2 ≤ N)
    (hr : extractPeriod measured n_count N = .ok r)
    (hv : validateAndFactor N a r = none) :
    run_shors_single N a n_count measured = .ok .pynone := by
  obtain ⟨qc, hqc⟩ := build_shors_qc_ok N a n_count hN
  simp only [run_shors_single, hqc, ok_then, hr, hv]
  rfl

theorem shorsAlgorithmLoop_exhaust (N n_count : ℕ) (aS oS : ℕ → ℕ) (hN : 3 ≤ N)
    (hcop : ∀ t, Nat.gcd (aS t) N = 1)
    (hfail : ∀ t r, extractPeriod (oS t) n_count N = .ok r →
      validateAndFactor N (aS t) r = none) :
    ∀ fuel trial, shorsAlgorithmLoop N n_count aS oS fuel trial =
      .ok (.tuple4 none none none none) := by
  intro fuel
  induction fuel with
  | zero => intro trial; rfl
  | succ f ih =>
    intro trial
    rw [shorsAlgorithmLoop]
    rw [if_neg (by omega : ¬ N < 3)]
    rw [if_neg (by simp [hcop trial])]
    obtain ⟨qc, hqc⟩ := build_shors_qc_ok N (aS trial) n_count (by omega)
    obtain ⟨r, hr⟩ := extractPeriod_isOk (oS trial) n_count N (by omega)
    simp only [hqc, ok_then, hr, hfail trial r hr]
    exact ih (trial + 1)

theorem runShorsAerLoop_exhaust (N n_count : ℕ) (aS oS : ℕ → ℕ) (hN : 3 ≤ N)
    (hcop : ∀ t, Nat.gcd (aS t) N = 1)
    (hfail : ∀ t r, extractPeriod (oS t) n_count N = .ok r →
      validateAndFactor N (aS t) r = none) :
    ∀ fuel trial, runShorsAerLoop N n_count aS oS fuel trial = .ok .pynone := by
  intro fuel
  induction fuel with
  | zero => intro trial; rfl
  | succ f ih =>
    intro trial
    rw [runShorsAerLoop]
    rw [if_neg (by omega : ¬ N < 3)]
    rw [if_neg (by simp [hcop trial])]
    obtain ⟨r, hr⟩ := extractPeriod_isOk (oS trial) n_count N (by omega)
    have hsingle := run_shors_single_none N (aS trial) n_count (oS trial) r
      (by omega) hr (hfail trial r hr)
    simp only [hsingle, ok_then]
    rw [if_neg (by simp)]
    exact ih (trial + 1)

theorem runShorsQringsLoop_exhaust (N n_count : ℕ) (aS oS : ℕ → ℕ) (hN : 3 ≤ N)
    (hcop : ∀ t, Nat.gcd (aS t) N = 1)
    (hfail : ∀ t r, extractPeriod (oS t) n_count N = .ok r →
      validateAndFactor N (aS t) r = none) :
    ∀ fuel trial, runShorsQringsLoop N n_count aS oS fuel trial = .ok .pynone := by
  intro fuel
  induction fuel with
  | zero => intro trial; rfl
  | succ f ih =>
    intro trial
    rw [runShorsQringsLoop]
    rw [if_neg (by omega : ¬ N < 3)]
    rw [if_neg (by simp [hcop trial])]
    obtain ⟨qc, hqc⟩ := build_shors_qc_sampler_ready_ok N (aS trial) n_count (by omega)
    obtain ⟨r, hr⟩ := extractPeriod_isOk (oS trial) n_count N (by omega)
    simp only [hqc, ok_then, hr, hfail trial r hr]
    exact ih (trial + 1)

theorem shorsTraceLoop_exhaust (N n_count : ℕ) (aS oS : ℕ → ℕ) (hN : 3 ≤ N)
    (hcop : ∀ t, Nat.gcd (aS t) N = 1)
    (hfail : ∀ t r, extractPeriod (oS t) n_count N = .ok r →
      validateAndFactor N (aS t) r = none) :
    ∀ fuel trial, shorsTraceLoop N n_count aS oS fuel trial =
      (.ok (.tuple4 none none none none), fuel, fuel) := by
  intro fuel
  induction fuel with
  | zero => intro trial; rfl
  | succ f ih =>
    intro trial
    rw [shorsTraceLoop]
    rw [if_neg (by omega : ¬ N < 3)]
    rw [if_neg (by simp [hcop trial])]
    obtain ⟨qc, hqc⟩ := build_shors_qc_ok N (aS trial) n_count (by omega)
    obtain ⟨r, hr⟩ := extractPeriod_isOk (oS trial) n_count N (by omega)
    simp only [hqc, hr, hfail trial r hr]
    rw [ih (trial + 1)]

/-- The instrumented loop agrees with `shorsAlgorithmLoop` on its result. -/
theorem shorsTraceLoop_fst (N n_count : ℕ) (aS oS : ℕ → ℕ) :
    ∀ fuel trial, (shorsTraceLoop N n_count aS oS fuel trial).1 =
      shorsAlgorithmLoop N n_count aS oS fuel trial := by
  intro fuel
  induction fuel with
  | zero => intro trial; rfl
  | succ f ih =>
    intro trial
    rw [shorsTraceLoop, shorsAlgorithmLoop]
    by_cases h3 : N < 3
    · rw [if_pos h3, if_pos h3]
    rw [if_neg h3, if_neg h3]
    by_cases hg : Nat.gcd (aS trial) N ≠ 1
    · rw [if_pos hg, if_pos hg]
    rw [if_neg hg, if_neg hg]
    cases hqc : build_shors_qc N (aS trial) n_count with
    | error e => simp only [hqc, err_then]
    | ok qc =>
      simp only [hqc, ok_then]
      cases hr : extractPeriod (oS trial) n_count N with
      | error e => simp only [hr, err_then]
      | ok r =>
        simp only [hr, ok_then]
        cases hv : validateAndFactor N (aS trial) r with
        | none =>
          simp only [hv]
          exact ih (trial + 1)
        | some v =>
          obtain ⟨f1, f2, a2, r2⟩ := v
          simp only [hv]
          rfl

theorem shorsAlgorithmLoop_shortcut (N n_count fuel trial : ℕ) (aS oS : ℕ → ℕ)
    (hN : 3 ≤ N) (hg : Nat.gcd (aS trial) N ≠ 1) :
    shorsAlgorithmLoop N n_count aS oS (fuel + 1) trial =
      .ok (.tuple4 (some (Nat.gcd (aS trial) N)) (some (N / Nat.gcd (aS trial) N))
        (some (aS trial)) none) := by
  rw [shorsAlgorithmLoop, if_neg (by omega : ¬ N < 3), if_pos hg]

theorem runShorsAerLoop_shortcut (N n_count fuel trial : ℕ) (aS oS : ℕ → ℕ)
    (hN : 3 ≤ N) (hg : Nat.gcd (aS trial) N ≠ 1) :
    runShorsAerLoop N n_count aS oS (fuel + 1) trial =
      .ok (.tuple4 (some (Nat.gcd (aS trial) N)) (some (N / Nat.gcd (aS trial) N))
        (some (aS trial)) none) := by
  rw [runShorsAerLoop, if_neg (by omega : ¬ N < 3), if_pos hg]

theorem shorsTraceLoop_shortcut (N n_count fuel trial : ℕ) (aS oS : ℕ → ℕ)
    (hN : 3 ≤ N) (hg : Nat.gcd (aS trial) N ≠ 1) :
    shorsTraceLoop N n_count aS oS (fuel + 1) trial =
      (.ok (.tuple4 (some (Nat.gcd (aS trial) N)) (some (N / Nat.gcd (aS trial) N))
        (some (aS trial)) none), 1, 0) := by
  rw [shorsTraceLoop, if_neg (by omega : ¬ N < 3), if_pos hg]

/-! ## Shared facts for the claims about `modular_add_const_mod_N` -/

/-- For any in-range constant, the construction of
`modular_add_const_mod_N` raises `CircuitError`: the full CDKM adder gate
spans `2*n_bits + 2` qubits but is applied to the `2*n_bits + 1` qubits
`x ++ work ++ carry`. -/
theorem modular_add_const_mod_N_raises (a N n_bits : ℕ) (ha : a < 2 ^ n_bits) :
    modular_add_const_mod_N a N n_bits = .error "CircuitError" := by
  have hblen : bitLen a ≤ n_bits := (bitLen_le_iff a n_bits).2 ha
  obtain ⟨c1, h1, hq1⟩ := xOnBits_ok true a n_bits (List.range (pyBinLen a n_bits))
    ⟨2 * n_bits + 2, .nil⟩ (by
      intro i hi
      simp only [List.mem_range] at hi
      show n_bits + i < 2 * n_bits + 2
      have : pyBinLen a n_bits ≤ n_bits + 1 := by
        unfold pyBinLen
        omega
      omega)
  have h2 : appendGate c1 (Gate.cdkmAdd n_bits) (List.range (2 * n_bits + 1)) =
      .error "CircuitError" := by
    unfold appendGate
    rw [if_neg]
    rintro ⟨hlen, -, -⟩
    simp only [List.length_range, Gate.arity] at hlen
    omega
  simp only [modular_add_const_mod_N, Gate.arity, h1, ok_then, h2, err_then]

/-! ## The claims -/

/-- C1: the claim states that for `0 ≤ a < N` the circuit built by
`modular_add_const_mod_N (a, N, n_bits)` maps a basis state `x` to
`(x + a) mod N` and returns work, carry and flag to `|0⟩`.  In fact no such
circuit exists: the construction raises `CircuitError` for every in-range
constant, because the qiskit `CDKMRippleCarryAdder(n_bits)` gate spans
`2*n_bits + 2` qubits while the function applies it to only `2*n_bits + 1`
(contradicting the function's own docstring `Result = (x + a) % N`). -/
theorem claim_C1_modular_add_never_builds (a N n_bits : ℕ) (ha : a < 2 ^ n_bits) :
    modular_add_const_mod_N a N n_bits = .error "CircuitError" ∧
    ∀ c, modular_add_const_mod_N a N n_bits ≠ .ok c := by
  refine ⟨modular_add_const_mod_N_raises a N n_bits ha, ?_⟩
  intro c hc
  rw [modular_add_const_mod_N_raises a N n_bits ha] at hc
  cases hc

/-- C1 witness: the failing input `a = 1, N = 3, n_bits = 2`. -/
theorem claim_C1_witness :
    (1:ℕ) < 2 ^ 2 ∧ modular_add_const_mod_N 1 3 2 = .error "CircuitError" ∧
    ∀ c, modular_add_const_mod_N 1 3 2 ≠ .ok c := by
  have h := claim_C1_modular_add_never_builds 1 3 2 (by norm_num)
  exact ⟨by norm_num, h.1, h.2⟩

/-- C2: the claim states that `controlled_modular_exponentiation(a, N,
n_count)` applies controlled modular multiplications so that on a counting
basis state `x` the work register ends holding `a^x mod N`.  In fact the
per-bit gates are controlled plain (non-modular, misaligned) constant
additions built by `quantum_modular_addition_clean`: on the failing input
`a = 2, N = 3, n_count = 1` and counting state `x = 1`, the work register
ends holding `17` (the carry-in qubit set and the adder's `b` register at
`2`) instead of `2^1 mod 3 = 2`. -/
theorem claim_C2_modexp_wrong_value :
    modexpEval 2 3 1 1 = some 17 ∧ 2 ^ 1 % 3 = 2 ∧ (17 : ℕ) ≠ 2 ∧
    modexpEval 2 3 1 0 = some 1 :=
  ⟨rfl, rfl, by decide, rfl⟩

/-- C7: the claim states that for `0 ≤ a < N ≤ 2^n_bits` the construction
`modular_add_const_mod_N(a, N, n_bits)` succeeds with no error.  In fact
the CDKM adder gate has `2*n_bits + 2` qubits, the operand list
`x ++ work ++ carry` has only `2*n_bits + 1`, and qiskit's append check
therefore raises `CircuitError` on every input in range. -/
theorem claim_C7_construction_raises (a N n_bits : ℕ)
    (ha : a < N) (hN : N ≤ 2 ^ n_bits) :
    (Gate.cdkmAdd n_bits).arity = 2 * n_bits + 2 ∧
    (List.range (2 * n_bits + 1)).length = 2 * n_bits + 1 ∧
    modular_add_const_mod_N a N n_bits = .error "CircuitError" := by
  refine ⟨rfl, List.length_range _, ?_⟩
  exact modular_add_const_mod_N_raises a N n_bits (by omega)

/-- C7 witness: `a = 1, N = 3, n_bits = 2`. -/
theorem claim_C7_witness :
    (1:ℕ) < 3 ∧ (3:ℕ) ≤ 2 ^ 2 ∧
    ((Gate.cdkmAdd 2).arity = 2 * 2 + 2 ∧
     (List.range (2 * 2 + 1)).length = 2 * 2 + 1 ∧
     modular_add_const_mod_N 1 3 2 = .error "CircuitError") :=
  ⟨by norm_num, by norm_num, claim_C7_construction_raises 1 3 2 (by norm_num) (by norm_num)⟩

/-- C8: the claim states that zero addends `(a * 2^i) mod N = 0` are
omitted from the multiplier circuit and that this omission leaves the
computed function unchanged relative to inserting a modular addition of the
constant `0`.  On the code the comparison is empty: whenever some addend is
nonzero the builder raises `CircuitError` (via `modular_add_const_mod_N`),
and the zero-addition circuit `modular_add_const_mod_N 0 N n_bits` raises
as well, so neither side of the claimed equivalence exists; only the
all-addends-zero case builds, giving the empty circuit. -/
theorem claim_C8_zero_skip :
    controlled_multiply_const_mod_N 3 3 2 = .ok ⟨3 * 2 + 1, OpSeq.nil⟩ ∧
    multiply_const_mod_N 3 3 2 = .ok ⟨3 * 2 + 1, OpSeq.nil⟩ ∧
    controlled_multiply_const_mod_N 1 3 2 = .error "CircuitError" ∧
    multiply_const_mod_N 1 3 2 = .error "CircuitError" ∧
    modular_add_const_mod_N 0 3 2 = .error "CircuitError" :=
  ⟨rfl, rfl, rfl, rfl, rfl⟩

/-- C3: for a trial with `gcd(a, N) = 1` and extracted candidate period
`r`, the per-trial driver `run_shors_single` returns the success tuple
`(gcd(x-1,N), gcd(x+1,N), a, r)` with `x = a^(r/2) mod N` exactly when `r`
is even, `x ∉ {1, N-1}`, and both gcds avoid `{1, N}`; otherwise the trial
returns `None` and produces no factors. -/
theorem claim_C3_validation (N a n_count measured r : ℕ) (hN : 2 ≤ N)
    (_hcop : Nat.gcd a N = 1)
    (hr : extractPeriod measured n_count N = .ok r) :
    (run_shors_single N a n_count measured =
        .ok (.tuple4 (some (Int.gcd (((a ^ (r / 2) % N : ℕ) : ℤ) - 1) N))
          (some (Int.gcd (((a ^ (r / 2) % N : ℕ) : ℤ) + 1) N)) (some a) (some r))
      ↔ (r % 2 = 0 ∧ a ^ (r / 2) % N ≠ 1 ∧ a ^ (r / 2) % N ≠ N - 1 ∧
         Int.gcd (((a ^ (r / 2) % N : ℕ) : ℤ) - 1) N ≠ 1 ∧
         Int.gcd (((a ^ (r / 2) % N : ℕ) : ℤ) - 1) N ≠ N ∧
         Int.gcd (((a ^ (r / 2) % N : ℕ) : ℤ) + 1) N ≠ 1 ∧
         Int.gcd (((a ^ (r / 2) % N : ℕ) : ℤ) + 1) N ≠ N)) ∧
    (¬ (r % 2 = 0 ∧ a ^ (r / 2) % N ≠ 1 ∧ a ^ (r / 2) % N ≠ N - 1 ∧
         Int.gcd (((a ^ (r / 2) % N : ℕ) : ℤ) - 1) N ≠ 1 ∧
         Int.gcd (((a ^ (r / 2) % N : ℕ) : ℤ) - 1) N ≠ N ∧
         Int.gcd (((a ^ (r / 2) % N : ℕ) : ℤ) + 1) N ≠ 1 ∧
         Int.gcd (((a ^ (r / 2) % N : ℕ) : ℤ) + 1) N ≠ N) →
      run_shors_single N a n_count measured = .ok .pynone) := by
  obtain ⟨qc, hqc⟩ := build_shors_qc_ok N a n_count hN
  have hvnone : ¬ (r % 2 = 0 ∧ a ^ (r / 2) % N ≠ 1 ∧ a ^ (r / 2) % N ≠ N - 1 ∧
      Int.gcd (((a ^ (r / 2) % N : ℕ) : ℤ) - 1) N ≠ 1 ∧
      Int.gcd (((a ^ (r / 2) % N : ℕ) : ℤ) - 1) N ≠ N ∧
      Int.gcd (((a ^ (r / 2) % N : ℕ) : ℤ) + 1) N ≠ 1 ∧
      Int.gcd (((a ^ (r / 2) % N : ℕ) : ℤ) + 1) N ≠ N) →
      validateAndFactor N a r = none := by
    intro hnc
    unfold validateAndFactor
    by_cases h1 : r % 2 = 0 ∧ a ^ (r / 2) % N ≠ 1 ∧ a ^ (r / 2) % N ≠ N - 1
    · rw [if_pos h1]
      by_cases h2 : Int.gcd (((a ^ (r / 2) % N : ℕ) : ℤ) - 1) N ≠ 1 ∧
          Int.gcd (((a ^ (r / 2) % N : ℕ) : ℤ) - 1) N ≠ N ∧
          Int.gcd (((a ^ (r / 2) % N : ℕ) : ℤ) + 1) N ≠ 1 ∧
          Int.gcd (((a ^ (r / 2) % N : ℕ) : ℤ) + 1) N ≠ N
      · exact absurd ⟨h1.1, h1.2.1, h1.2.2, h2.1, h2.2.1, h2.2.2.1, h2.2.2.2⟩ hnc
      · rw [if_neg h2]
    · rw [if_neg h1]
  have hvsome : (r % 2 = 0 ∧ a ^ (r / 2) % N ≠ 1 ∧ a ^ (r / 2) % N ≠ N - 1 ∧
      Int.gcd (((a ^ (r / 2) % N : ℕ) : ℤ) - 1) N ≠ 1 ∧
      Int.gcd (((a ^ (r / 2) % N : ℕ) : ℤ) - 1) N ≠ N ∧
      Int.gcd (((a ^ (r / 2) % N : ℕ) : ℤ) + 1) N ≠ 1 ∧
      Int.gcd (((a ^ (r / 2) % N : ℕ) : ℤ) + 1) N ≠ N) →
      validateAndFactor N a r =
        some (Int.gcd (((a ^ (r / 2) % N : ℕ) : ℤ) - 1) N,
          Int.gcd (((a ^ (r / 2) % N : ℕ) : ℤ) + 1) N, a, r) := by
    intro hc
    unfold validateAndFactor
    rw [if_pos ⟨hc.1, hc.2.1, hc.2.2.1⟩]
    rw [if_pos ⟨hc.2.2.2.1, hc.2.2.2.2.1, hc.2.2.2.2.2.1, hc.2.2.2.2.2.2⟩]
  constructor
  · constructor
    · intro hrun
      by_contra hnc
      have hnone := run_shors_single_none N a n_count measured r hN hr (hvnone hnc)
      rw [hnone] at hrun
      cases hrun
    · intro hc
      simp only [run_shors_single, hqc, ok_then, hr, hvsome hc]
      rfl
  · intro hnc
    exact run_shors_single_none N a n_count measured r hN hr (hvnone hnc)

/-- C3 witness: `N = 15, a = 7, n_count = 4`, measured value 4, so the
phase is `4/16 = 1/4` and `r = 4`; the trial succeeds with factors
`gcd(48, 15) = 3` and `gcd(50, 15) = 5`. -/
theorem claim_C3_witness :
    (2:ℕ) ≤ 15 ∧ Nat.gcd 7 15 = 1 ∧ extractPeriod 4 4 15 = .ok 4 ∧
    run_shors_single 15 7 4 4 = .ok (.tuple4 (some 3) (some 5) (some 7) (some 4)) := by
  have h := claim_C3_validation 15 7 4 4 4 (by norm_num) (by decide) rfl
  refine ⟨by norm_num, by decide, rfl, ?_⟩
  have hconds : (4 % 2 = 0 ∧ 7 ^ (4 / 2) % 15 ≠ 1 ∧ 7 ^ (4 / 2) % 15 ≠ 15 - 1 ∧
      Int.gcd (((7 ^ (4 / 2) % 15 : ℕ) : ℤ) - 1) 15 ≠ 1 ∧
      Int.gcd (((7 ^ (4 / 2) % 15 : ℕ) : ℤ) - 1) 15 ≠ 15 ∧
      Int.gcd (((7 ^ (4 / 2) % 15 : ℕ) : ℤ) + 1) 15 ≠ 1 ∧
      Int.gcd (((7 ^ (4 / 2) % 15 : ℕ) : ℤ) + 1) 15 ≠ 15) := by decide
  have hrun := h.1.2 hconds
  have hv1 : Int.gcd (((7 ^ (4 / 2) % 15 : ℕ) : ℤ) - 1) ((15:ℕ):ℤ) = 3 := by decide
  have hv2 : Int.gcd (((7 ^ (4 / 2) % 15 : ℕ) : ℤ) + 1) ((15:ℕ):ℤ) = 5 := by decide
  rw [hv1, hv2] at hrun
  exact hrun

/-- C5: period extraction interprets the measured value as the phase
`v / 2^n_count`, and the candidate `r` is the denominator of the value
`Fraction(phase).limit_denominator(N)`, which is a closest fraction to the
phase among all fractions with denominator at most `N`. -/
theorem claim_C5_period_extraction (v n_count N : ℕ) (hN : 1 ≤ N) :
    ∃ y : ℚ,
      limitDenominator (mkRat v (2 ^ n_count)) N = .ok y ∧
      extractPeriod v n_count N = .ok y.den ∧
      y.den ≤ N ∧
      ∀ p q : ℤ, 0 < q → q ≤ (N:ℤ) →
        |mkRat v (2 ^ n_count) - y| ≤ |mkRat v (2 ^ n_count) - (p:ℚ)/(q:ℚ)| :=
  extractPeriod_best v n_count N hN

/-- C5 witness: phase `1/4` (measured 1 with 2 counting bits) and bound 15
yield `r = 4` exactly. -/
theorem claim_C5_witness :
    (1:ℕ) ≤ 15 ∧
    (∃ y : ℚ,
      limitDenominator (mkRat 1 (2 ^ 2)) 15 = .ok y ∧
      extractPeriod 1 2 15 = .ok y.den ∧
      y.den ≤ 15 ∧
      ∀ p q : ℤ, 0 < q → q ≤ (15:ℤ) →
        |mkRat 1 (2 ^ 2) - y| ≤ |mkRat 1 (2 ^ 2) - (p:ℚ)/(q:ℚ)|) ∧
    extractPeriod 1 2 15 = .ok 4 ∧ mkRat 1 (2 ^ 2) = mkRat 1 4 :=
  ⟨by norm_num, claim_C5_period_extraction 1 2 15 (by norm_num), rfl, rfl⟩

/-- C4: whenever the drawn base shares a factor with `N` (and the drawing
itself is possible, `N ≥ 3`), both drivers return the classical-shortcut
success tuple `(gcd(a,N), N/gcd(a,N), a, None)` on the first trial, build
no quantum circuit, and the result does not depend on the backend's
outcomes. -/
theorem claim_C4_classical_shortcut (N n_count max_trials : ℕ) (aS oS : ℕ → ℕ)
    (hN : 3 ≤ N) (hg : Nat.gcd (aS 0) N ≠ 1) :
    shors_algorithm N n_count (max_trials + 1) aS oS =
      .ok (.tuple4 (some (Nat.gcd (aS 0) N)) (some (N / Nat.gcd (aS 0) N))
        (some (aS 0)) none) ∧
    run_shors_aer N n_count (max_trials + 1) aS oS =
      .ok (.tuple4 (some (Nat.gcd (aS 0) N)) (some (N / Nat.gcd (aS 0) N))
        (some (aS 0)) none) ∧
    (shorsTraceLoop N n_count aS oS (max_trials + 1) 0).2.2 = 0 ∧
    (shorsTraceLoop N n_count aS oS (max_trials + 1) 0).2.1 = 1 ∧
    ∀ oS' : ℕ → ℕ, shors_algorithm N n_count (max_trials + 1) aS oS' =
      shors_algorithm N n_count (max_trials + 1) aS oS := by
  refine ⟨?_, ?_, ?_, ?_, ?_⟩
  · exact shorsAlgorithmLoop_shortcut N n_count max_trials 0 aS oS hN hg
  · exact runShorsAerLoop_shortcut N n_count max_trials 0 aS oS hN hg
  · rw [shorsTraceLoop_shortcut N n_count max_trials 0 aS oS hN hg]
  · rw [shorsTraceLoop_shortcut N n_count max_trials 0 aS oS hN hg]
  · intro oS'
    rw [shors_algorithm, shors_algorithm,
      shorsAlgorithmLoop_shortcut N n_count max_trials 0 aS oS hN hg,
      shorsAlgorithmLoop_shortcut N n_count max_trials 0 aS oS' hN hg]

/-- C4 witness: `N = 143` with drawn base `a = 13`: immediate success with
factors `13` and `11`, no circuit built. -/
theorem claim_C4_witness :
    (3:ℕ) ≤ 143 ∧ Nat.gcd 13 143 ≠ 1 ∧ Nat.gcd 13 143 = 13 ∧ 143 / 13 = 11 ∧
    shors_algorithm 143 8 1 (fun _ => 13) (fun _ => 0) =
      .ok (.tuple4 (some 13) (some 11) (some 13) none) ∧
    run_shors_aer 143 8 1 (fun _ => 13) (fun _ => 0) =
      .ok (.tuple4 (some 13) (some 11) (some 13) none) ∧
    (shorsTraceLoop 143 8 (fun _ => 13) (fun _ => 0) 1 0).2.2 = 0 := by
  have h := claim_C4_classical_shortcut 143 8 0 (fun _ => 13) (fun _ => 0)
    (by norm_num) (by decide)
  have h13 : Nat.gcd 13 143 = 13 := by decide
  refine ⟨by norm_num, by decide, h13, by norm_num, ?_, ?_, h.2.2.1⟩
  · have h1 := h.1
    rw [h13] at h1
    norm_num at h1
    exact h1
  · have h2 := h.2.1
    rw [h13] at h2
    norm_num at h2
    exact h2

/-- C6 counterexample: at `N = 2` with `max_trials = 1` (where no base can
be drawn, so the claim's failing-trials hypotheses hold vacuously) the
driver does not return the NotFound sentinel after its trial: it raises
`ValueError` from `random.randint(2, N-1)`. -/
theorem claim_C6_counterexample :
    shors_algorithm 2 6 1 (fun _ => 0) (fun _ => 0) = .error "ValueError" ∧
    shors_algorithm 2 6 1 (fun _ => 0) (fun _ => 0) ≠
      .ok (.tuple4 none none none none) := ⟨rfl, by intro h; cases h⟩

/-- C6 amended: for every `N ≥ 3`, when every drawn base is coprime to `N`
and every extracted period fails validation, `shors_algorithm` performs
exactly `max_trials` trials and returns its NotFound sentinel
`(None, None, None, None)` (and `run_shors_aer` returns `None`), with no
exception. -/
theorem claim_C6_exhaustion (N n_count max_trials : ℕ) (aS oS : ℕ → ℕ)
    (hN : 3 ≤ N)
    (hcop : ∀ t, Nat.gcd (aS t) N = 1)
    (hfail : ∀ t r, extractPeriod (oS t) n_count N = .ok r →
      validateAndFactor N (aS t) r = none) :
    shors_algorithm N n_count max_trials aS oS = .ok (.tuple4 none none none none) ∧
    (shorsTraceLoop N n_count aS oS max_trials 0).2.1 = max_trials ∧
    run_shors_aer N n_count max_trials aS oS = .ok .pynone := by
  refine ⟨?_, ?_, ?_⟩
  · exact shorsAlgorithmLoop_exhaust N n_count aS oS hN hcop hfail max_trials 0
  · rw [shorsTraceLoop_exhaust N n_count aS oS hN hcop hfail max_trials 0]
  · exact runShorsAerLoop_exhaust N n_count aS oS hN hcop hfail max_trials 0

/-- C6 witness: `N = 7`, base stream constantly 3, outcome stream
constantly 0 (so `r = 1`, odd, always rejected), `max_trials = 2`. -/
theorem claim_C6_witness :
    shors_algorithm 7 2 2 (fun _ => 3) (fun _ => 0) = .ok (.tuple4 none none none none) ∧
    (shorsTraceLoop 7 2 (fun _ => 3) (fun _ => 0) 2 0).2.1 = 2 ∧
    run_shors_aer 7 2 2 (fun _ => 3) (fun _ => 0) = .ok .pynone := by
  refine claim_C6_exhaustion 7 2 2 (fun _ => 3) (fun _ => 0) (by norm_num)
    (fun t => by show Nat.gcd 3 7 = 1; decide) ?_
  intro t r hr
  have h0 : extractPeriod 0 2 7 = .ok 1 := rfl
  rw [h0] at hr
  injection hr with hr1
  subst hr1
  rfl

/-- C9 counterexample: for the prime `N = 7` the driver does not fail with
any error before running a trial: it runs its (one) trial and returns the
NotFound sentinel as a normal value. -/
theorem claim_C9_counterexample :
    Nat.Prime 7 ∧
    shors_algorithm 7 2 1 (fun _ => 3) (fun _ => 0) = .ok (.tuple4 none none none none) ∧
    (shorsTraceLoop 7 2 (fun _ => 3) (fun _ => 0) 1 0).2.1 = 1 := by
  refine ⟨by norm_num, rfl, rfl⟩

/-- C9 amended: the drivers perform no input validation and have no
`InvalidInput` error: for a prime `N ≥ 3` the driver runs its trials like
any other input and returns the NotFound sentinel when they are exhausted;
`run_shors_single` accepts a base outside `[2, N-1]` (here `a = 1` for
`N = 5`) and processes it normally; and for `N < 3` the failure is a
`ValueError` raised by `random.randint`, not a dedicated validation
error. -/
theorem claim_C9_no_input_validation (N n_count max_trials : ℕ) (aS oS : ℕ → ℕ)
    (hN : 3 ≤ N) (hprime : N.Prime)
    (hrange : ∀ t, 2 ≤ aS t ∧ aS t ≤ N - 1)
    (hfail : ∀ t r, extractPeriod (oS t) n_count N = .ok r →
      validateAndFactor N (aS t) r = none) :
    shors_algorithm N n_count max_trials aS oS = .ok (.tuple4 none none none none) ∧
    run_shors_single 5 1 2 0 = .ok .pynone ∧
    (∀ nc mt : ℕ, ∀ aS' oS' : ℕ → ℕ,
      shors_algorithm 2 nc (mt + 1) aS' oS' = .error "ValueError") := by
  have hcop : ∀ t, Nat.gcd (aS t) N = 1 := by
    intro t
    have h1 := (hrange t).1
    have h2 := (hrange t).2
    have hnd : ¬ N ∣ aS t := by
      intro hdvd
      have := Nat.le_of_dvd (by omega) hdvd
      omega
    have := (Nat.Prime.coprime_iff_not_dvd hprime).2 hnd
    exact Nat.Coprime.gcd_eq_one (Nat.coprime_comm.1 this)
  refine ⟨shorsAlgorithmLoop_exhaust N n_count aS oS hN hcop hfail max_trials 0, rfl, ?_⟩
  intro nc mt aS' oS'
  rw [shors_algorithm, shorsAlgorithmLoop, if_pos (by omega : (2:ℕ) < 3)]

/-- C9 witness: prime `N = 7`, base stream constantly 3 (inside
`[2, N-1]`), outcomes constantly 0. -/
theorem claim_C9_witness :
    shors_algorithm 7 2 2 (fun _ => 3) (fun _ => 0) = .ok (.tuple4 none none none none) ∧
    run_shors_single 5 1 2 0 = .ok .pynone ∧
    (∀ nc mt : ℕ, ∀ aS' oS' : ℕ → ℕ,
      shors_algorithm 2 nc (mt + 1) aS' oS' = .error "ValueError") := by
  refine claim_C9_no_input_validation 7 2 2 (fun _ => 3) (fun _ => 0) (by norm_num)
    (by norm_num) (fun t => by norm_num) ?_
  intro t r hr
  have h0 : extractPeriod 0 2 7 = .ok 1 := rfl
  rw [h0] at hr
  injection hr with hr1
  subst hr1
  rfl

/-- C10: when all trials are exhausted the failure sentinel differs across
entry points: `shors_algorithm` returns the 4-tuple `(None, None, None,
None)` while `run_shors_aer` and `run_shors_with_random_a_qrings` return
the single value `None`; unpacking four values (as the notebook's driver
cell does) raises `TypeError` exactly on the bare `None`, while every
4-tuple unpacks. -/
theorem claim_C10_sentinel_shapes (N n_count max_trials : ℕ) (aS oS : ℕ → ℕ)
    (hN : 3 ≤ N)
    (hcop : ∀ t, Nat.gcd (aS t) N = 1)
    (hfail : ∀ t r, extractPeriod (oS t) n_count N = .ok r →
      validateAndFactor N (aS t) r = none) :
    shors_algorithm N n_count max_trials aS oS = .ok (.tuple4 none none none none) ∧
    run_shors_aer N n_count max_trials aS oS = .ok .pynone ∧
    run_shors_with_random_a_qrings N n_count max_trials aS oS = .ok .pynone ∧
    unpack4 RetVal.pynone = .error "TypeError" ∧
    (∀ f1 f2 b p : Option ℕ, unpack4 (.tuple4 f1 f2 b p) = .ok (f1, f2, b, p)) := by
  refine ⟨shorsAlgorithmLoop_exhaust N n_count aS oS hN hcop hfail max_trials 0,
    runShorsAerLoop_exhaust N n_count aS oS hN hcop hfail max_trials 0,
    runShorsQringsLoop_exhaust N n_count aS oS hN hcop hfail max_trials 0,
    rfl, fun f1 f2 b p => rfl⟩

/-- C10 witness: `N = 7`, base stream constantly 3, outcomes constantly 0,
two trials. -/
theorem claim_C10_witness :
    shors_algorithm 7 2 2 (fun _ => 3) (fun _ => 0) = .ok (.tuple4 none none none none) ∧
    run_shors_aer 7 2 2 (fun _ => 3) (fun _ => 0) = .ok .pynone ∧
    run_shors_with_random_a_qrings 7 2 2 (fun _ => 3) (fun _ => 0) = .ok .pynone ∧
    unpack4 RetVal.pynone = .error "TypeError" ∧
    (∀ f1 f2 b p : Option ℕ, unpack4 (.tuple4 f1 f2 b p) = .ok (f1, f2, b, p)) := by
  refine claim_C10_sentinel_shapes 7 2 2 (fun _ => 3) (fun _ => 0) (by norm_num)
    (fun t => by show Nat.gcd 3 7 = 1; decide) ?_
  intro t r hr
  have h0 : extractPeriod 0 2 7 = .ok 1 := rfl
  rw [h0] at hr
  injection hr with hr1
  subst hr1
  rfl
